import Mathlib

/-!
Verification of the task-tree core of `src/app.py` (project-control-tower).

The embedding models:
* `recalculate_progress_recursively` (src/app.py lines 107-130),
* `build_task_hierarchy` (src/app.py lines 133-217),
* `get_s_curve_data` (src/app.py lines 503-565).

Numbers are embedded as `ℚ` (Python floats are modelled exactly on the
rationals the claims exercise), dates as integer day numbers, and the
Python dict used as the WBS index as an association list.
-/

/-- Python's builtin `round(x)`: round to the nearest integer with ties
going to the even integer (banker's rounding), as used at
src/app.py line 127. -/
def pyRound (q : ℚ) : ℤ :=
  let f : ℤ := q.floor
  let frac : ℚ := q - f
  if frac < 1/2 then f
  else if 1/2 < frac then f + 1
  else if Even f then f else f + 1

/-- Python's builtin `round(x, 2)`: round to 2 decimal places, ties to
even, as used at src/app.py lines 560-561. -/
def pyRound2 (q : ℚ) : ℚ :=
  (pyRound (q * 100) : ℚ) / 100

/-- The observable outcome of one date field of a task, as consumed by
`get_s_curve_data`: the field is either absent/falsy (modelled by
`Option.none` around this type), a string `datetime.fromisoformat`
parses (modelled by its day number `day n`), or a present value the
parser raises `ValueError`/`TypeError` on (`mal`). -/
inductive PDate where
  | mal : PDate
  | day (n : ℤ) : PDate
deriving DecidableEq

/-- A task node as stored in the JSON task tree of src/app.py: the fields
the three core functions read (`wbs`, `weightage`, `progress`, the date
strings and `subtasks`); the remaining fields of the dict built at
src/app.py lines 180-203 (name, status, flags, delays, notes) are carried
along unchanged by all three functions and are omitted.  `progress` is
`none` when the key is absent or `null`.  WBS strings are `List Char`
(Python `str` compared code point by code point). -/
inductive TaskNode where
  | mk (wbs : List Char) (weightage : ℚ) (progress : Option ℚ)
       (plannedStartDate plannedEndDate actualEndDate : Option PDate)
       (subtasks : List TaskNode)

def TaskNode.wbs : TaskNode → List Char
  | .mk w _ _ _ _ _ _ => w

def TaskNode.weightage : TaskNode → ℚ
  | .mk _ w _ _ _ _ _ => w

def TaskNode.progress : TaskNode → Option ℚ
  | .mk _ _ p _ _ _ _ => p

def TaskNode.plannedStartDate : TaskNode → Option PDate
  | .mk _ _ _ ps _ _ _ => ps

def TaskNode.plannedEndDate : TaskNode → Option PDate
  | .mk _ _ _ _ pe _ _ => pe

def TaskNode.actualEndDate : TaskNode → Option PDate
  | .mk _ _ _ _ _ ae _ => ae

def TaskNode.subtasks : TaskNode → List TaskNode
  | .mk _ _ _ _ _ _ s => s

/-- `float(subtask.get('progress', 0) or 0)` (src/app.py line 122): a
missing or `null` (or zero) progress reads as `0`. -/
def TaskNode.progVal (t : TaskNode) : ℚ := t.progress.getD 0

/-- `total_weight`: the sum of `float(subtask.get('weightage', 0.0))`
over a child list (src/app.py lines 121, 123). -/
def totalW (ts : List TaskNode) : ℚ := (ts.map TaskNode.weightage).sum

/-- `weighted_progress_sum`: sum of `progress * weight` over a child list
(src/app.py lines 122, 124). -/
def wSum (ts : List TaskNode) : ℚ :=
  (ts.map (fun s => s.progVal * s.weightage)).sum

mutual
/-- One step of `recalculate_progress_recursively` (src/app.py lines
111-129) on a single task: a task with a non-empty `subtasks` list first
has its children recalculated, then its own `progress` set to
`round(weighted_progress_sum / total_weight)` when `total_weight > 0`
and to `0` otherwise; a task with no subtasks is returned untouched. -/
def recalcTask : TaskNode → TaskNode
  | .mk w wt p ps pe ae subs =>
    match subs with
    | [] => .mk w wt p ps pe ae []
    | s :: ss =>
      let subs₂ := recalcList (s :: ss)
      .mk w wt
        (some (if 0 < totalW subs₂ then (pyRound (wSum subs₂ / totalW subs₂) : ℚ) else 0))
        ps pe ae subs₂

/-- `recalculate_progress_recursively(tasks)` (src/app.py lines 107-130):
the loop `for task in tasks` over a forest. -/
def recalcList : List TaskNode → List TaskNode
  | [] => []
  | t :: ts => recalcTask t :: recalcList ts
end

mutual
/-- All nodes of a tree, the node itself first. -/
def allNodesTask : TaskNode → List TaskNode
  | .mk w wt p ps pe ae subs => .mk w wt p ps pe ae subs :: allNodesList subs

/-- All nodes of a forest. -/
def allNodesList : List TaskNode → List TaskNode
  | [] => []
  | t :: ts => allNodesTask t ++ allNodesList ts
end

mutual
/-- The leaf nodes (empty `subtasks`) of a tree, in traversal order. -/
def leavesTask : TaskNode → List TaskNode
  | .mk w wt p ps pe ae subs =>
    match subs with
    | [] => [.mk w wt p ps pe ae []]
    | s :: ss => leavesList (s :: ss)

/-- The leaf nodes of a forest. -/
def leavesList : List TaskNode → List TaskNode
  | [] => []
  | t :: ts => leavesTask t ++ leavesList ts
end

/-- `Rat.floor` is definitionally the `Int.floor` of `ℚ`. -/
theorem ratFloor_eq (q : ℚ) : Rat.floor q = ⌊q⌋ := rfl

-- sanity checks on the Python rounding model
example : pyRound (1/2) = 0 := by norm_num [pyRound, ratFloor_eq]
example : pyRound (3/2) = 2 := by norm_num [pyRound, ratFloor_eq]
example : pyRound (5/2) = 2 := by norm_num [pyRound, ratFloor_eq]
example : pyRound (-1/2) = 0 := by norm_num [pyRound, ratFloor_eq]
example : pyRound (-3/2) = -2 := by norm_num [pyRound, ratFloor_eq]
example : pyRound (7/10) = 1 := by norm_num [pyRound, ratFloor_eq]

example :
    (recalcList [TaskNode.mk ['1'] 1 (some 7) none none none
      [TaskNode.mk ['1','.','1'] 3 (some 100) none none none [],
       TaskNode.mk ['1','.','2'] 1 (some 0) none none none []]]).map
        TaskNode.progress = [some 75] := by
  norm_num [recalcList, recalcTask, totalW, wSum, TaskNode.progress, TaskNode.progVal,
    TaskNode.weightage, pyRound, ratFloor_eq]

/-! ### Equations and shape lemmas for `recalculate_progress_recursively` -/

theorem recalcList_nil : recalcList [] = [] := rfl

theorem recalcList_cons (t : TaskNode) (ts : List TaskNode) :
    recalcList (t :: ts) = recalcTask t :: recalcList ts := rfl

/-- A task with an empty `subtasks` list is returned untouched
(src/app.py line 112: the `if` guard fails, nothing is written). -/
theorem recalcTask_of_leaf (t : TaskNode) (h : t.subtasks = []) : recalcTask t = t := by
  cases t with
  | mk w wt p ps pe ae subs =>
    simp only [TaskNode.subtasks] at h
    subst h
    rfl

/-- A task with a non-empty `subtasks` list gets its children
recalculated and its progress overwritten by the guarded weighted
average (src/app.py lines 112-129). -/
theorem recalcTask_of_ne_nil (w : List Char) (wt : ℚ) (p : Option ℚ)
    (ps pe ae : Option PDate) (subs : List TaskNode) (h : subs ≠ []) :
    recalcTask (.mk w wt p ps pe ae subs) =
      .mk w wt
        (some (if 0 < totalW (recalcList subs)
          then (pyRound (wSum (recalcList subs) / totalW (recalcList subs)) : ℚ)
          else 0))
        ps pe ae (recalcList subs) := by
  cases subs with
  | nil => exact absurd rfl h
  | cons s ss => rfl

theorem recalcList_ne_nil (t : TaskNode) (ts : List TaskNode) :
    recalcList (t :: ts) ≠ [] := by
  rw [recalcList_cons]
  exact List.cons_ne_nil _ _

mutual
/-- Re-running `recalculate_progress_recursively` on one already
recalculated task changes nothing. -/
theorem recalcTask_idem : ∀ t : TaskNode, recalcTask (recalcTask t) = recalcTask t
  | .mk w wt p ps pe ae [] => rfl
  | .mk w wt p ps pe ae (s :: ss) => by
      have ih := recalcList_idem (s :: ss)
      rw [recalcTask_of_ne_nil w wt p ps pe ae (s :: ss) (List.cons_ne_nil _ _),
        recalcTask_of_ne_nil _ _ _ _ _ _ _ (recalcList_ne_nil s ss), ih]

/-- Re-running `recalculate_progress_recursively` on an already
recalculated forest changes nothing. -/
theorem recalcList_idem : ∀ ts : List TaskNode, recalcList (recalcList ts) = recalcList ts
  | [] => rfl
  | t :: ts => by
      rw [recalcList_cons, recalcList_cons, recalcTask_idem t, recalcList_idem ts]
end

theorem allNodesTask_def (w : List Char) (wt : ℚ) (p : Option ℚ)
    (ps pe ae : Option PDate) (subs : List TaskNode) :
    allNodesTask (.mk w wt p ps pe ae subs) =
      .mk w wt p ps pe ae subs :: allNodesList subs := rfl

theorem allNodesList_cons (t : TaskNode) (ts : List TaskNode) :
    allNodesList (t :: ts) = allNodesTask t ++ allNodesList ts := rfl

/-- The progress-consistency invariant at one node: an internal node's
`progress` is the banker's rounding of the weightage-weighted average of
its children's progress values (a missing child progress reading as 0,
src/app.py line 122) when the total child weight is positive, and `0`
when the total child weight is zero. -/
def ProgressConsistent (p : TaskNode) : Prop :=
  p.subtasks ≠ [] →
    (0 < totalW p.subtasks →
       p.progress = some ((pyRound (wSum p.subtasks / totalW p.subtasks) : ℚ))) ∧
    (totalW p.subtasks = 0 → p.progress = some 0)

mutual
theorem progressConsistent_task :
    ∀ t : TaskNode, ∀ p ∈ allNodesTask (recalcTask t), ProgressConsistent p
  | .mk w wt pr ps pe ae [], p, hp => by
      rw [recalcTask_of_leaf (.mk w wt pr ps pe ae []) rfl, allNodesTask_def] at hp
      rcases List.mem_cons.1 hp with rfl | hp
      · intro hne
        exact absurd rfl hne
      · simp only [allNodesList] at hp
        exact absurd hp (List.not_mem_nil p)
  | .mk w wt pr ps pe ae (s :: ss), p, hp => by
      rw [recalcTask_of_ne_nil w wt pr ps pe ae (s :: ss) (List.cons_ne_nil _ _),
        allNodesTask_def] at hp
      rcases List.mem_cons.1 hp with rfl | hp
      · intro _
        simp only [TaskNode.progress, TaskNode.subtasks]
        constructor
        · intro hpos
          rw [if_pos hpos]
        · intro hzero
          rw [if_neg (by rw [hzero]; exact lt_irrefl 0)]
      · exact progressConsistent_list (s :: ss) p hp

theorem progressConsistent_list :
    ∀ ts : List TaskNode, ∀ p ∈ allNodesList (recalcList ts), ProgressConsistent p
  | [], p, hp => absurd hp (List.not_mem_nil p)
  | t :: ts, p, hp => by
      rw [recalcList_cons, allNodesList_cons] at hp
      rcases List.mem_append.1 hp with hp | hp
      · exact progressConsistent_task t p hp
      · exact progressConsistent_list ts p hp
end

theorem leavesTask_of_cons (w : List Char) (wt : ℚ) (p : Option ℚ)
    (ps pe ae : Option PDate) (s : TaskNode) (ss : List TaskNode) :
    leavesTask (.mk w wt p ps pe ae (s :: ss)) = leavesList (s :: ss) := rfl

theorem leavesList_cons (t : TaskNode) (ts : List TaskNode) :
    leavesList (t :: ts) = leavesTask t ++ leavesList ts := rfl

mutual
/-- `recalculate_progress_recursively` leaves every leaf node (and its
`progress`) untouched: the leaf roster of a tree is unchanged. -/
theorem leavesTask_recalc : ∀ t : TaskNode, leavesTask (recalcTask t) = leavesTask t
  | .mk w wt p ps pe ae [] => rfl
  | .mk w wt p ps pe ae (s :: ss) => by
      rw [recalcTask_of_ne_nil w wt p ps pe ae (s :: ss) (List.cons_ne_nil _ _)]
      rw [recalcList_cons]
      rw [leavesTask_of_cons, leavesTask_of_cons, ← recalcList_cons]
      exact leavesList_recalc (s :: ss)

theorem leavesList_recalc : ∀ ts : List TaskNode, leavesList (recalcList ts) = leavesList ts
  | [] => rfl
  | t :: ts => by
      rw [recalcList_cons, leavesList_cons, leavesList_cons,
        leavesTask_recalc t, leavesList_recalc ts]
end

/-! ### Claim theorems about `recalculate_progress_recursively` -/

/-- Claim C1: after `recalculate_progress_recursively` runs on any
forest, every node `p` of the result with children satisfies
`p.progress = round(Σ progress(cᵢ)·wᵢ / Σ wᵢ)` (banker's rounding, a
missing child progress reading as 0) when `Σ wᵢ > 0` and
`p.progress = 0` when the total child weight is 0 — there is never a
division error — and the leaf nodes of the forest, with their `progress`
fields, are exactly the leaf nodes of the input, unchanged. -/
theorem c1_recalc_progress_invariant (ts : List TaskNode) :
    (∀ p ∈ allNodesList (recalcList ts), ProgressConsistent p) ∧
    leavesList (recalcList ts) = leavesList ts :=
  ⟨progressConsistent_list ts, leavesList_recalc ts⟩

/-- Claim C2: `recalculate_progress_recursively` is idempotent — applied
twice to any forest with no intervening edits it yields the same forest
as applied once. -/
theorem c2_recalc_idempotent (ts : List TaskNode) :
    recalcList (recalcList ts) = recalcList ts :=
  recalcList_idem ts

/-- Python's `round` maps `k + 1/2` to the even one of `k`, `k + 1`. -/
theorem pyRound_int_add_half (k : ℤ) :
    pyRound ((k : ℚ) + 1/2) = if Even k then k else k + 1 := by
  have hfl : Rat.floor ((k : ℚ) + 1/2) = k := by
    rw [ratFloor_eq, add_comm, Int.floor_add_int]
    norm_num
  have h1 : ((k : ℚ) + 1/2) - (k : ℚ) = 1/2 := by ring
  simp only [pyRound, hfl, h1]
  norm_num

/-- Claim C9: the tie-break of the rounding used at src/app.py line 127
is round-half-to-even — an internal node whose weighted child average is
exactly `k + 1/2` gets the nearest even integer as its progress, not
unconditional half-up. -/
theorem c9_rounding_half_to_even (t : TaskNode) (k : ℤ)
    (hne : t.subtasks ≠ [])
    (hpos : 0 < totalW (recalcList t.subtasks))
    (havg : wSum (recalcList t.subtasks) / totalW (recalcList t.subtasks) = (k : ℚ) + 1/2) :
    (recalcTask t).progress = some ((if Even k then k else k + 1 : ℤ) : ℚ) := by
  cases t with
  | mk w wt p ps pe ae subs =>
    simp only [TaskNode.subtasks] at hne hpos havg
    rw [recalcTask_of_ne_nil w wt p ps pe ae subs hne]
    simp only [TaskNode.progress]
    rw [if_pos hpos, havg, pyRound_int_add_half]

def exC9 : TaskNode :=
  .mk ['1'] 1 (some 7) none none none
    [.mk ['1','.','1'] 1 (some 0) none none none [],
     .mk ['1','.','2'] 1 (some 1) none none none []]

/-- Witness for C9: two children of weight 1 with progress 0 and 1 have
average 1/2, and the parent's progress becomes the even neighbour 0. -/
theorem c9_rounding_half_to_even_witness :
    (recalcTask exC9).progress = some ((if Even (0 : ℤ) then (0 : ℤ) else 0 + 1 : ℤ) : ℚ) :=
  c9_rounding_half_to_even exC9 0
    (by simp [exC9, TaskNode.subtasks])
    (by norm_num [exC9, TaskNode.subtasks, recalcList, recalcTask, totalW,
      TaskNode.weightage])
    (by norm_num [exC9, TaskNode.subtasks, recalcList, recalcTask, totalW, wSum,
      TaskNode.weightage, TaskNode.progVal, TaskNode.progress])

theorem recalcList_of_leaves :
    ∀ ts : List TaskNode, (∀ x ∈ ts, x.subtasks = []) → recalcList ts = ts
  | [], _ => rfl
  | t :: ts, h => by
      rw [recalcList_cons, recalcTask_of_leaf t (h t (List.mem_cons_self t ts)),
        recalcList_of_leaves ts (fun x hx => h x (List.mem_cons_of_mem t hx))]

theorem totalW_append (a b : List TaskNode) : totalW (a ++ b) = totalW a + totalW b := by
  simp [totalW]

theorem totalW_cons (t : TaskNode) (ts : List TaskNode) :
    totalW (t :: ts) = t.weightage + totalW ts := by
  simp [totalW]

theorem wSum_append (a b : List TaskNode) : wSum (a ++ b) = wSum a + wSum b := by
  simp [wSum]

theorem wSum_cons (t : TaskNode) (ts : List TaskNode) :
    wSum (t :: ts) = t.progVal * t.weightage + wSum ts := by
  simp [wSum]

/-- Claim C10: during aggregation a child whose `progress` is absent or
`null` contributes 0 to the weighted sum while its `weightage` still
counts toward the total weight, and `recalculate_progress_recursively`
never fails on it (here: its result is totally defined by the same
guarded formula, the missing value reading as 0).  Stated for a parent
of leaf children so the children are aggregated as given. -/
theorem c10_missing_child_progress (w : List Char) (wt : ℚ) (p : Option ℚ)
    (ps pe ae : Option PDate) (pre post : List TaskNode) (c : TaskNode)
    (hcprog : c.progress = none)
    (hleaves : ∀ x ∈ pre ++ c :: post, x.subtasks = []) :
    (recalcTask (.mk w wt p ps pe ae (pre ++ c :: post))).progress =
      some (if 0 < totalW pre + c.weightage + totalW post
        then (pyRound ((wSum pre + wSum post) / (totalW pre + c.weightage + totalW post)) : ℚ)
        else 0) := by
  have hne : pre ++ c :: post ≠ [] := by
    intro h
    exact absurd (List.append_eq_nil.1 h).2 (List.cons_ne_nil c post)
  rw [recalcTask_of_ne_nil w wt p ps pe ae _ hne, recalcList_of_leaves _ hleaves]
  simp only [TaskNode.progress]
  have hzero : TaskNode.progVal c = 0 := by
    simp [TaskNode.progVal, hcprog]
  rw [totalW_append, totalW_cons, wSum_append, wSum_cons, hzero]
  have e1 : totalW pre + (c.weightage + totalW post) =
      totalW pre + c.weightage + totalW post := by ring
  have e2 : wSum pre + (0 * c.weightage + wSum post) = wSum pre + wSum post := by ring
  rw [e1, e2]

def exC10pre : List TaskNode := [.mk ['1','.','1'] 2 (some 100) none none none []]

def exC10c : TaskNode := .mk ['1','.','2'] 1 none none none none []

/-- Witness for C10: a leaf child with `progress` absent and weightage 1
beside a leaf of weightage 2 at progress 100 gives the parent
`round(200 / 3) = 67`: the missing progress counted as 0, its weight in
the denominator, no failure. -/
theorem c10_missing_child_progress_witness :
    (recalcTask (.mk ['1'] 1 (some 7) none none none (exC10pre ++ exC10c :: []))).progress =
      some (if 0 < totalW exC10pre + exC10c.weightage + totalW []
        then (pyRound ((wSum exC10pre + wSum []) /
          (totalW exC10pre + exC10c.weightage + totalW [])) : ℚ)
        else 0) :=
  c10_missing_child_progress ['1'] 1 (some 7) none none none exC10pre [] exC10c
    (by simp [exC10c, TaskNode.progress])
    (by simp [exC10pre, exC10c, List.forall_mem_cons, TaskNode.subtasks])

example :
    (recalcTask (.mk ['1'] 1 (some 7) none none none (exC10pre ++ exC10c :: []))).progress =
      some 67 := by
  norm_num [exC10pre, exC10c, recalcTask, recalcList, totalW, wSum, TaskNode.progress,
    TaskNode.progVal, TaskNode.weightage, pyRound, ratFloor_eq]

/-! ### WBS strings: Python's `wbs.split('.')` and `'.'.join(...)` -/

/-- Python's `s.split('.')` on a string as a character list:
`"".split('.') == [""]`, `"a.b".split('.') == ["a","b"]`. -/
def splitDots : List Char → List (List Char)
  | [] => [[]]
  | c :: cs =>
    if c = '.' then [] :: splitDots cs
    else
      match splitDots cs with
      | [] => [[c]]
      | s :: rest => (c :: s) :: rest

/-- Python's `'.'.join(parts)` on character lists. -/
def joinDots : List (List Char) → List Char
  | [] => []
  | [s] => s
  | s :: rest => s ++ '.' :: joinDots rest

/-- `'.'.join(wbs.split('.')[:-1])` — the parent WBS derivation of
src/app.py line 210 (`[:-1]` is `List.dropLast`). -/
def parentW (w : List Char) : List Char := joinDots (splitDots w).dropLast

theorem splitDots_ne_nil : ∀ cs : List Char, splitDots cs ≠ []
  | [] => by simp [splitDots]
  | c :: cs => by
      by_cases h : c = '.'
      · simp [splitDots, h]
      · simp only [splitDots, if_neg h]
        cases hs : splitDots cs with
        | nil => simp
        | cons s rest => simp

theorem joinDots_cons (x : List Char) (rest : List (List Char)) (h : rest ≠ []) :
    joinDots (x :: rest) = x ++ '.' :: joinDots rest := by
  cases rest with
  | nil => exact absurd rfl h
  | cons y ys => rfl

/-- Splitting and rejoining on dots is the identity. -/
theorem joinDots_splitDots : ∀ cs : List Char, joinDots (splitDots cs) = cs
  | [] => rfl
  | c :: cs => by
      by_cases h : c = '.'
      · subst h
        have hsplit : splitDots ('.' :: cs) = [] :: splitDots cs := by
          simp [splitDots]
        rw [hsplit, joinDots_cons [] (splitDots cs) (splitDots_ne_nil cs)]
        simp [joinDots_splitDots cs]
      · simp only [splitDots, if_neg h]
        cases hs : splitDots cs with
        | nil => exact absurd hs (splitDots_ne_nil cs)
        | cons s rest =>
          cases rest with
          | nil =>
            have := joinDots_splitDots cs
            rw [hs] at this
            simp only [joinDots] at this ⊢
            simp [this]
          | cons r rs =>
            have := joinDots_splitDots cs
            rw [hs] at this
            rw [joinDots_cons (c :: s) (r :: rs) (List.cons_ne_nil r rs)]
            rw [joinDots_cons s (r :: rs) (List.cons_ne_nil r rs)] at this
            simp [this]

theorem joinDots_dropLast_length :
    ∀ parts : List (List Char), 2 ≤ parts.length →
      (joinDots parts.dropLast).length < (joinDots parts).length
  | [], h => by simp at h
  | [a], h => by simp at h
  | [a, b], _ => by
      simp only [List.dropLast]
      rw [joinDots_cons a [b] (List.cons_ne_nil b [])]
      simp [joinDots]
  | a :: b :: c :: rest, _ => by
      have ih := joinDots_dropLast_length (b :: c :: rest) (by simp)
      have hd : (b :: c :: rest).dropLast ≠ [] := by
        cases hc : (b :: c :: rest).dropLast with
        | nil =>
          have := congrArg List.length hc
          simp [List.length_dropLast] at this
        | cons x xs => simp
      show (joinDots (a :: (b :: c :: rest).dropLast)).length <
        (joinDots (a :: (b :: c :: rest))).length
      rw [joinDots_cons a _ hd, joinDots_cons a _ (List.cons_ne_nil b (c :: rest))]
      simp only [List.length_append, List.length_cons]
      omega

/-- A non-empty parent WBS is strictly shorter than the WBS it was
derived from: the recursion of the hierarchy build terminates. -/
theorem parentW_length (w : List Char) (h : parentW w ≠ []) :
    (parentW w).length < w.length := by
  have h2 : 2 ≤ (splitDots w).length := by
    rcases hs : splitDots w with _ | ⟨s, rest⟩
    · exact absurd hs (splitDots_ne_nil w)
    · rcases rest with _ | ⟨r, rs⟩
      · exfalso
        apply h
        simp [parentW, hs, joinDots]
      · simp
  calc (parentW w).length < (joinDots (splitDots w)).length :=
        joinDots_dropLast_length (splitDots w) h2
    _ = w.length := by rw [joinDots_splitDots]

theorem length_filter_le_filter {α : Type} (l : List α) (p q : α → Bool)
    (h : ∀ a ∈ l, p a = true → q a = true) :
    (l.filter p).length ≤ (l.filter q).length := by
  induction l with
  | nil => simp
  | cons a tl ih =>
    have ih' := ih (fun x hx => h x (List.mem_cons_of_mem a hx))
    by_cases hp : p a = true
    · rw [List.filter_cons_of_pos hp, List.filter_cons_of_pos (h a (List.mem_cons_self a tl) hp)]
      simpa using ih'
    · rw [List.filter_cons_of_neg (by simpa using hp)]
      rcases hq : q a with _ | _
      · rw [List.filter_cons_of_neg (by simp [hq])]
        exact ih'
      · rw [List.filter_cons_of_pos hq]
        exact le_trans ih' (Nat.le_succ _)

theorem length_filter_lt_filter {α : Type} (l : List α) (p q : α → Bool)
    (h : ∀ a ∈ l, p a = true → q a = true) (x : α) (hx : x ∈ l)
    (hqx : q x = true) (hpx : p x = false) :
    (l.filter p).length < (l.filter q).length := by
  induction l with
  | nil => exact absurd hx (List.not_mem_nil x)
  | cons a tl ih =>
    have hsub : ∀ b ∈ tl, p b = true → q b = true :=
      fun b hb => h b (List.mem_cons_of_mem a hb)
    rcases List.mem_cons.1 hx with rfl | hxtl
    · rw [List.filter_cons_of_neg (by simp [hpx]), List.filter_cons_of_pos hqx]
      exact Nat.lt_succ_of_le (length_filter_le_filter tl p q hsub)
    · have ihlt := ih hsub hxtl
      by_cases hp : p a = true
      · rw [List.filter_cons_of_pos hp, List.filter_cons_of_pos (h a (List.mem_cons_self a tl) hp)]
        simpa using ihlt
      · rw [List.filter_cons_of_neg (by simpa using hp)]
        rcases hq : q a with _ | _
        · rw [List.filter_cons_of_neg (by simp [hq])]
          exact ihlt
        · rw [List.filter_cons_of_pos hq]
          exact lt_trans ihlt (Nat.lt_succ_self _)

/-! ### `build_task_hierarchy` (src/app.py lines 133-217) -/

/-- A cell value as `row.get` hands it to `build_task_hierarchy` after
`pd.read_csv` and `df.where(pd.notnull(df), None)`: a missing column is
modelled by `Option.none` around this type; a present value is
None/NaN (`null`), a number, or a string. -/
inductive CellVal where
  | null : CellVal
  | num (q : ℚ) : CellVal
  | str (s : List Char) : CellVal

def isDigitCh (c : Char) : Bool := '0' ≤ c && c ≤ '9'

def digitsToNat (cs : List Char) : ℕ :=
  cs.foldl (fun a c => a * 10 + (c.toNat - '0'.toNat)) 0

/-- A model of Python's builtin `float(str)` on the shapes the claims
exercise: an optional sign, then decimal digits with at most one point,
at least one digit in all (`"-12"`, `"3.5"`, `"1."`, `".5"`); other
strings — in particular the non-numeric text of a spreadsheet cell —
fail to parse, where Python raises `ValueError` (exponents and
infinities are outside the model). -/
def pyFloatOfStr (s : List Char) : Option ℚ :=
  let core : List Char → Option ℚ := fun cs =>
    match splitDots cs with
    | [a] => if a ≠ [] && a.all isDigitCh then some (digitsToNat a) else none
    | [a, b] =>
      if (a ≠ [] || b ≠ []) && a.all isDigitCh && b.all isDigitCh then
        some ((digitsToNat a : ℚ) + (digitsToNat b : ℚ) / (10 : ℚ) ^ b.length)
      else none
    | _ => none
  match s with
  | '-' :: rest => (core rest).map Neg.neg
  | '+' :: rest => core rest
  | _ => core s

/-- The weightage coercion of src/app.py lines 166-178: a missing
`Weightage` column defaults to `0.0`; a present `None`/NaN value becomes
`0.0`; otherwise `float(raw_val)` is attempted and a
`ValueError`/`TypeError` falls back to `0.0`. -/
def coerceWeightage : Option CellVal → ℚ
  | none => 0
  | some .null => 0
  | some (.num q) => q
  | some (.str s) => (pyFloatOfStr s).getD 0

/-- One DataFrame row as `build_task_hierarchy` reads it after column
normalization: the `WBS` cell already as `str(row.get('WBS'))` (`none`
models a missing/NaN cell, which `pd.isna` detects at line 161), the raw
`Weightage` cell, and the `Start_Date`/`Finish_Date` cells copied
verbatim into the node (modelled by their parse outcome). -/
structure CsvRow where
  wbs : Option (List Char)
  weightage : Option CellVal
  start_d : Option PDate
  finish_d : Option PDate

/-- The task dict built for one surviving row (src/app.py lines
180-203): `progress = 0`, no actual dates, empty `subtasks`. -/
def mkTaskOfRow (r : CsvRow) (w : List Char) : TaskNode :=
  .mk w (coerceWeightage r.weightage) (some 0) r.start_d r.finish_d none []

/-- Writing `tasks_by_wbs[wbs] = task` into the dict (line 204): replace
the value at an existing key, else append the new key. -/
def insertLW : List (List Char × TaskNode) → List Char → TaskNode →
    List (List Char × TaskNode)
  | [], k, v => [(k, v)]
  | e :: m, k, v => if e.1 = k then (k, v) :: m else e :: insertLW m k v

/-- Dict lookup `tasks_by_wbs[k]`. -/
def lookupW (m : List (List Char × TaskNode)) (k : List Char) : Option TaskNode :=
  (m.find? (fun e => decide (e.1 = k))).map Prod.snd

/-- The keys of the dict. -/
def wbsKeys (m : List (List Char × TaskNode)) : List (List Char) := m.map Prod.fst

/-- The first pass of `build_task_hierarchy` (src/app.py lines 160-204):
rows with a missing/NaN WBS are skipped, every other row's task is
written into the dict under its WBS. -/
def firstPass : List (List Char × TaskNode) → List CsvRow → List (List Char × TaskNode)
  | m, [] => m
  | m, r :: rs =>
    match r.wbs with
    | none => firstPass m rs
    | some w => firstPass (insertLW m w (mkTaskOfRow r w)) rs

def TaskNode.withSubtasks : TaskNode → List TaskNode → TaskNode
  | .mk w wt p ps pe ae _, l => .mk w wt p ps pe ae l

/-- Python's string `<` on two strings as character lists: compare code
point by code point, a strict prefix being smaller. -/
def pyStrLtB : List Char → List Char → Bool
  | [], [] => false
  | [], _ :: _ => true
  | _ :: _, [] => false
  | a :: as, b :: bs => if a < b then true else if b < a then false else pyStrLtB as bs

/-- Python's string `<=`. -/
def pyStrLeB (a b : List Char) : Bool := !(pyStrLtB b a)

theorem pyStrLtB_iff : ∀ a b : List Char, pyStrLtB a b = true ↔ a < b
  | [], [] =>
      iff_of_false (by simp [pyStrLtB]) (lt_irrefl ([] : List Char))
  | [], b :: bs =>
      iff_of_true (by simp [pyStrLtB]) (List.nil_lt_cons b bs)
  | a :: as, [] =>
      iff_of_false (by simp [pyStrLtB]) (fun h => by cases h)
  | a :: as, b :: bs => by
      by_cases hab : a < b
      · exact iff_of_true (by simp [pyStrLtB, hab]) (List.Lex.rel hab)
      · by_cases hba : b < a
        · refine iff_of_false (by simp [pyStrLtB, hab, hba]) ?_
          intro h
          cases h with
          | cons h' => exact lt_irrefl a hba
          | rel h' => exact hab h'
        · have hEq : a = b := le_antisymm (not_lt.1 hba) (not_lt.1 hab)
          subst hEq
          have h3 : pyStrLtB (a :: as) (a :: bs) = pyStrLtB as bs := by
            simp [pyStrLtB]
          rw [h3, pyStrLtB_iff as bs]
          constructor
          · exact fun h => List.Lex.cons h
          · intro h
            cases h with
            | cons h' => exact h'
            | rel h' => exact absurd h' (lt_irrefl a)

theorem pyStrLeB_iff (a b : List Char) : pyStrLeB a b = true ↔ a ≤ b := by
  rw [pyStrLeB, Bool.not_eq_true', ← not_lt, ← pyStrLtB_iff b a]
  simp

/-- The sort relation of Python's `sorted` over strings. -/
def pyLe (a b : List Char) : Prop := pyStrLeB a b = true

instance : DecidableRel pyLe := fun a b => instDecidableEqBool (pyStrLeB a b) true

instance : IsTotal (List Char) pyLe :=
  ⟨fun a b => by
    rw [pyLe, pyLe, pyStrLeB_iff, pyStrLeB_iff]
    exact le_total a b⟩

instance : IsTrans (List Char) pyLe :=
  ⟨fun a b c hab hbc => by
    rw [pyLe, pyStrLeB_iff] at hab hbc ⊢
    exact le_trans hab hbc⟩

/-- The keys attached as children of key `w` in the second pass, in
sorted-key visitation order (src/app.py lines 207-212): those whose
derived parent WBS is `w` and non-empty.  This is evaluated only at keys
`w` of the dict, where the remaining guard `parent_wbs in tasks_by_wbs`
of line 211 holds automatically. -/
def childKeys (sk : List (List Char)) (w : List Char) : List (List Char) :=
  sk.filter (fun k => decide (parentW k = w ∧ parentW k ≠ []))

/-- The keys that become top-level (line 213-214): derived parent WBS
empty (falsy) or not a key of the dict. -/
def topKeys (sk keys : List (List Char)) : List (List Char) :=
  sk.filter (fun k => decide (¬(parentW k ≠ [] ∧ parentW k ∈ keys)))

def defaultNode : TaskNode := .mk [] 0 (some 0) none none none []

/-- The tree rooted at key `w` as it stands at the end of the second
pass: the dict's node for `w` with the nodes of its child keys, in
sorted order, as `subtasks`.  (In the Python the append happens through
shared mutable references, so each node's final `subtasks` list is
exactly its child keys' final nodes in sorted-key order.) -/
def buildNode (m : List (List Char × TaskNode)) (sk : List (List Char))
    (w : List Char) : TaskNode :=
  ((lookupW m w).getD defaultNode).withSubtasks
    ((childKeys sk w).attach.map (fun x => buildNode m sk x.1))
termination_by (sk.filter (fun j => decide (w.length < j.length))).length
decreasing_by
  have hx := List.mem_filter.1 x.2
  have hcond := of_decide_eq_true hx.2
  have hlen : w.length < x.1.length := by
    have := parentW_length x.1 hcond.2
    rwa [hcond.1] at this
  exact length_filter_lt_filter sk _ _
    (fun a _ ha => decide_eq_true (lt_trans hlen (of_decide_eq_true ha)))
    x.1 hx.1 (decide_eq_true hlen) (by simp)

theorem TaskNode.wbs_withSubtasks (t : TaskNode) (l : List TaskNode) :
    (t.withSubtasks l).wbs = t.wbs := by
  cases t; rfl

theorem TaskNode.weightage_withSubtasks (t : TaskNode) (l : List TaskNode) :
    (t.withSubtasks l).weightage = t.weightage := by
  cases t; rfl

theorem TaskNode.subtasks_withSubtasks (t : TaskNode) (l : List TaskNode) :
    (t.withSubtasks l).subtasks = l := by
  cases t; rfl

theorem allNodesTask_withSubtasks (t : TaskNode) (l : List TaskNode) :
    allNodesTask (t.withSubtasks l) = t.withSubtasks l :: allNodesList l := by
  cases t; rfl

theorem allNodesList_map {α : Type} (f : α → TaskNode) (l : List α) :
    allNodesList (l.map f) = l.flatMap (fun k => allNodesTask (f k)) := by
  induction l with
  | nil => rfl
  | cons a tl ih => rw [List.map_cons, allNodesList_cons, List.flatMap_cons, ih]

theorem mem_childKeys_iff (sk : List (List Char)) (w k : List Char) :
    k ∈ childKeys sk w ↔ k ∈ sk ∧ parentW k = w ∧ parentW k ≠ [] := by
  rw [childKeys, List.mem_filter, decide_eq_true_eq]

theorem mem_topKeys_iff (sk keys : List (List Char)) (k : List Char) :
    k ∈ topKeys sk keys ↔ k ∈ sk ∧ ¬(parentW k ≠ [] ∧ parentW k ∈ keys) := by
  rw [topKeys, List.mem_filter, decide_eq_true_eq]

/-- The ancestor chain of a WBS under the derived-parent relation,
stepping to the parent only while the parent WBS is non-empty and a key
of the index — exactly the attach condition of the second pass. -/
def chainUp (keys : List (List Char)) (j : List Char) : List (List Char) :=
  if h : parentW j ≠ [] ∧ parentW j ∈ keys then j :: chainUp keys (parentW j) else [j]
termination_by j.length
decreasing_by exact parentW_length j h.1

theorem chainUp_of_attached (keys : List (List Char)) (j : List Char)
    (h : parentW j ≠ [] ∧ parentW j ∈ keys) :
    chainUp keys j = j :: chainUp keys (parentW j) := by
  rw [chainUp, dif_pos h]

theorem chainUp_of_top (keys : List (List Char)) (j : List Char)
    (h : ¬(parentW j ≠ [] ∧ parentW j ∈ keys)) :
    chainUp keys j = [j] := by
  rw [chainUp, dif_neg h]

theorem mem_chainUp_self (keys : List (List Char)) (j : List Char) : j ∈ chainUp keys j := by
  by_cases h : parentW j ≠ [] ∧ parentW j ∈ keys
  · rw [chainUp_of_attached keys j h]
    exact List.mem_cons_self _ _
  · rw [chainUp_of_top keys j h]
    exact List.mem_cons_self _ _

theorem chainUp_length_le (keys : List (List Char)) (j : List Char) :
    ∀ x ∈ chainUp keys j, x.length ≤ j.length := by
  by_cases h : parentW j ≠ [] ∧ parentW j ∈ keys
  · rw [chainUp_of_attached keys j h]
    intro x hx
    rcases List.mem_cons.1 hx with rfl | hx
    · exact le_refl _
    · exact le_trans (chainUp_length_le keys (parentW j) x hx)
        (le_of_lt (parentW_length j h.1))
  · rw [chainUp_of_top keys j h]
    intro x hx
    rcases List.mem_cons.1 hx with rfl | hx
    · exact le_refl _
    · cases hx
termination_by j.length
decreasing_by exact parentW_length j h.1

theorem chainUp_suffix (keys : List (List Char)) (j k : List Char)
    (hk : k ∈ chainUp keys j) : chainUp keys k <:+ chainUp keys j := by
  by_cases h : parentW j ≠ [] ∧ parentW j ∈ keys
  · rw [chainUp_of_attached keys j h] at hk ⊢
    rcases List.mem_cons.1 hk with rfl | hk
    · rw [chainUp_of_attached keys k h]
    · exact (chainUp_suffix keys (parentW j) k hk).trans (List.suffix_cons j _)
  · rw [chainUp_of_top keys j h] at hk ⊢
    rcases List.mem_cons.1 hk with rfl | hk
    · rw [chainUp_of_top keys k h]
    · cases hk
termination_by j.length
decreasing_by exact parentW_length j h.1

/-- Two distinct keys with the same attach-parent cannot lie on one
ancestor chain. -/
theorem chain_not_both (keys : List (List Char)) (w k1 k2 : List Char)
    (hp1 : parentW k1 = w) (hne1 : parentW k1 ≠ []) (hw : w ∈ keys)
    (hlen2 : w.length < k2.length) (hne : k2 ≠ k1)
    (hsuff : chainUp keys k2 <:+ chainUp keys k1) : False := by
  have hk2 : k2 ∈ chainUp keys k1 :=
    hsuff.subset (mem_chainUp_self keys k2)
  rw [chainUp_of_attached keys k1 ⟨hne1, by rw [hp1]; exact hw⟩] at hk2
  rcases List.mem_cons.1 hk2 with rfl | hmem
  · exact hne rfl
  · rw [hp1] at hmem
    exact absurd (chainUp_length_le keys w k2 hmem) (not_le.2 hlen2)

/-- `build_task_hierarchy(df)` (src/app.py lines 133-217): index the
surviving rows by WBS, link children to parents visiting keys in
`sorted` (code point lexicographic) order, and run
`recalculate_progress_recursively` on the resulting top-level forest. -/
def build_task_hierarchy (rows : List CsvRow) : List TaskNode :=
  let m := firstPass [] rows
  let sk := List.insertionSort pyLe (wbsKeys m)
  recalcList ((topKeys sk (wbsKeys m)).map (buildNode m sk))

/-! ### Dict (index) lemmas -/

theorem lookupW_nil (k : List Char) : lookupW [] k = none := rfl

theorem lookupW_cons (e : List Char × TaskNode) (m : List (List Char × TaskNode))
    (k : List Char) :
    lookupW (e :: m) k = if e.1 = k then some e.2 else lookupW m k := by
  by_cases h : e.1 = k
  · rw [if_pos h]
    unfold lookupW
    rw [List.find?_cons_of_pos _ (by simpa using h)]
    rfl
  · rw [if_neg h]
    unfold lookupW
    rw [List.find?_cons_of_neg _ (by simpa using h)]

theorem lookup_insertLW_self : ∀ (m : List (List Char × TaskNode)) (k : List Char)
    (v : TaskNode), lookupW (insertLW m k v) k = some v
  | [], k, v => by simp [insertLW, lookupW_cons]
  | e :: m, k, v => by
      by_cases h : e.1 = k
      · simp [insertLW, h, lookupW_cons]
      · simp only [insertLW, if_neg h]
        rw [lookupW_cons, if_neg h, lookup_insertLW_self m k v]

theorem lookup_insertLW_ne : ∀ (m : List (List Char × TaskNode)) (k : List Char)
    (v : TaskNode) (k' : List Char), k' ≠ k → lookupW (insertLW m k v) k' = lookupW m k'
  | [], k, v, k', hne => by
      show lookupW [(k, v)] k' = lookupW [] k'
      rw [lookupW_cons, if_neg (fun hkk : (k, v).1 = k' => hne hkk.symm), lookupW_nil]
  | e :: m, k, v, k', hne => by
      by_cases h : e.1 = k
      · simp only [insertLW, if_pos h]
        rw [lookupW_cons, lookupW_cons,
          if_neg (fun hkk : (k, v).1 = k' => hne hkk.symm),
          if_neg (fun hek : e.1 = k' => hne (h.symm.trans hek).symm)]
      · simp only [insertLW, if_neg h]
        rw [lookupW_cons, lookupW_cons, lookup_insertLW_ne m k v k' hne]

theorem mem_wbsKeys_insertLW : ∀ (m : List (List Char × TaskNode)) (k v k'),
    (k' ∈ wbsKeys (insertLW m k v) ↔ k' = k ∨ k' ∈ wbsKeys m)
  | [], k, v, k' => by simp [insertLW, wbsKeys]
  | e :: m, k, v, k' => by
      by_cases h : e.1 = k
      · simp only [insertLW, if_pos h, wbsKeys, List.map_cons, List.mem_cons]
        rw [h]
        tauto
      · simp only [insertLW, if_neg h, wbsKeys, List.map_cons, List.mem_cons]
        rw [show List.map Prod.fst (insertLW m k v) = wbsKeys (insertLW m k v) from rfl,
          mem_wbsKeys_insertLW m k v k']
        rw [show List.map Prod.fst m = wbsKeys m from rfl]
        tauto

theorem nodup_wbsKeys_insertLW : ∀ (m : List (List Char × TaskNode)) (k v),
    (wbsKeys m).Nodup → (wbsKeys (insertLW m k v)).Nodup
  | [], k, v, _ => by simp [insertLW, wbsKeys]
  | e :: m, k, v, hnd => by
      rw [wbsKeys, List.map_cons, List.nodup_cons] at hnd
      by_cases h : e.1 = k
      · simp only [insertLW, if_pos h, wbsKeys, List.map_cons, List.nodup_cons]
        exact ⟨h ▸ hnd.1, hnd.2⟩
      · simp only [insertLW, if_neg h, wbsKeys, List.map_cons, List.nodup_cons]
        refine ⟨?_, nodup_wbsKeys_insertLW m k v hnd.2⟩
        rw [show List.map Prod.fst (insertLW m k v) = wbsKeys (insertLW m k v) from rfl,
          mem_wbsKeys_insertLW m k v e.1]
        rintro (rfl | hmem)
        · exact h rfl
        · exact hnd.1 hmem

theorem nodup_wbsKeys_firstPass : ∀ (rows : List CsvRow) (m : List (List Char × TaskNode)),
    (wbsKeys m).Nodup → (wbsKeys (firstPass m rows)).Nodup
  | [], m, h => h
  | r :: rs, m, h => by
      unfold firstPass
      cases r.wbs with
      | none => exact nodup_wbsKeys_firstPass rs m h
      | some w => exact nodup_wbsKeys_firstPass rs _ (nodup_wbsKeys_insertLW m w _ h)

theorem lookupW_isSome_iff : ∀ (m : List (List Char × TaskNode)) (k : List Char),
    (lookupW m k).isSome = true ↔ k ∈ wbsKeys m
  | [], k => by simp [lookupW_nil, wbsKeys]
  | e :: m, k => by
      rw [lookupW_cons]
      by_cases h : e.1 = k
      · rw [if_pos h]
        simp only [Option.isSome_some, wbsKeys, List.map_cons, List.mem_cons, true_iff]
        exact Or.inl h.symm
      · simp only [if_neg h, wbsKeys, List.map_cons, List.mem_cons]
        rw [lookupW_isSome_iff m k]
        rw [show List.map Prod.fst m = wbsKeys m from rfl]
        constructor
        · exact Or.inr
        · rintro (rfl | hmem)
          · exact absurd rfl h
          · exact hmem

/-- The index entry under key `k` after the first pass is the task built
from the last row whose WBS is `k` (later rows silently overwrite
earlier ones, src/app.py line 204). -/
theorem lookup_firstPass : ∀ (rows : List CsvRow) (m : List (List Char × TaskNode))
    (k : List Char),
    lookupW (firstPass m rows) k =
      match (rows.filter (fun r => decide (r.wbs = some k))).getLast? with
      | some r => some (mkTaskOfRow r k)
      | none => lookupW m k
  | [], m, k => rfl
  | r :: rs, m, k => by
      unfold firstPass
      cases hw : r.wbs with
      | none =>
        rw [List.filter_cons_of_neg (by simp [hw])]
        exact lookup_firstPass rs m k
      | some w =>
        by_cases hwk : w = k
        · subst hwk
          rw [List.filter_cons_of_pos (by simp [hw])]
          rw [lookup_firstPass rs (insertLW m w (mkTaskOfRow r w)) w]
          cases hlast : (rs.filter (fun r => decide (r.wbs = some w))).getLast? with
          | none =>
            rw [List.getLast?_cons, hlast]
            simp only [Option.getD_none]
            exact lookup_insertLW_self m w (mkTaskOfRow r w)
          | some r' =>
            rw [List.getLast?_cons, hlast]
            rfl
        · rw [List.filter_cons_of_neg (by simp [hw, hwk])]
          rw [lookup_firstPass rs (insertLW m w (mkTaskOfRow r w)) k]
          cases hlast : (rs.filter (fun r => decide (r.wbs = some k))).getLast? with
          | none => exact lookup_insertLW_ne m w _ k (fun h => hwk h.symm)
          | some r' => rfl

/-- Every index entry comes from a surviving row: its key is the row's
WBS, its value the task dict built for that row. -/
theorem lookup_firstPass_row (rows : List CsvRow) (k : List Char) (t : TaskNode)
    (h : lookupW (firstPass [] rows) k = some t) :
    ∃ r ∈ rows, r.wbs = some k ∧ t = mkTaskOfRow r k := by
  rw [lookup_firstPass rows [] k] at h
  cases hlast : (rows.filter (fun r => decide (r.wbs = some k))).getLast? with
  | none => rw [hlast] at h; exact absurd h (by simp [lookupW_nil])
  | some r =>
    rw [hlast] at h
    have hmem := List.mem_of_getLast?_eq_some hlast
    have hfil := List.mem_filter.1 hmem
    refine ⟨r, hfil.1, of_decide_eq_true hfil.2, ?_⟩
    simpa using h.symm

/-- The recursion of `buildNode` without the termination bookkeeping. -/
theorem buildNode_unfold (m : List (List Char × TaskNode)) (sk : List (List Char))
    (w : List Char) :
    buildNode m sk w =
      ((lookupW m w).getD defaultNode).withSubtasks
        ((childKeys sk w).map (buildNode m sk)) := by
  rw [buildNode]
  congr 1
  exact List.attach_map_val _ _

/-- Invariant of every node of the tree built at key `w`: its WBS is a
key, the root key is on its ancestor chain, and the node is the index
entry for its WBS with exactly its child keys' trees as subtasks. -/
theorem subtree_facts (m : List (List Char × TaskNode)) (sk : List (List Char))
    (hmem : ∀ x, x ∈ sk ↔ x ∈ wbsKeys m)
    (hwbs : ∀ k t, lookupW m k = some t → t.wbs = k)
    (w : List Char) (hw : w ∈ sk) :
    ∀ p ∈ allNodesTask (buildNode m sk w),
      p.wbs ∈ sk ∧ w ∈ chainUp (wbsKeys m) p.wbs ∧
      ∃ t, lookupW m p.wbs = some t ∧
        p = t.withSubtasks ((childKeys sk p.wbs).map (buildNode m sk)) := by
  intro p hp
  obtain ⟨t, ht⟩ := Option.isSome_iff_exists.1 ((lookupW_isSome_iff m w).2 ((hmem w).1 hw))
  have htw : t.wbs = w := hwbs w t ht
  rw [buildNode_unfold, ht, Option.getD_some, allNodesTask_withSubtasks] at hp
  rcases List.mem_cons.1 hp with rfl | hp
  · refine ⟨?_, ?_, t, ?_, ?_⟩
    · rw [TaskNode.wbs_withSubtasks, htw]; exact hw
    · rw [TaskNode.wbs_withSubtasks, htw]; exact mem_chainUp_self _ _
    · rw [TaskNode.wbs_withSubtasks, htw]; exact ht
    · rw [TaskNode.wbs_withSubtasks, htw]
  · rw [allNodesList_map] at hp
    obtain ⟨k, hkmem, hpk⟩ := List.mem_flatMap.1 hp
    obtain ⟨hksk, hkp, hkne⟩ := (mem_childKeys_iff sk w k).1 hkmem
    obtain ⟨hpsk, hchain, hrest⟩ := subtree_facts m sk hmem hwbs k hksk p hpk
    refine ⟨hpsk, ?_, hrest⟩
    have hwin : w ∈ chainUp (wbsKeys m) k := by
      rw [chainUp_of_attached _ k ⟨hkne, by rw [hkp]; exact (hmem w).1 hw⟩, hkp]
      exact List.mem_cons_of_mem _ (mem_chainUp_self _ w)
    exact (chainUp_suffix _ _ k hchain).subset hwin
termination_by (sk.filter (fun j => decide (w.length < j.length))).length
decreasing_by
  have hlen : w.length < k.length := by
    have := parentW_length k hkne
    rwa [hkp] at this
  exact length_filter_lt_filter sk _ _
    (fun a _ ha => decide_eq_true (lt_trans hlen (of_decide_eq_true ha)))
    k hksk (decide_eq_true hlen) (by simp)

theorem buildNode_wbs (m : List (List Char × TaskNode)) (sk : List (List Char))
    (hmem : ∀ x, x ∈ sk ↔ x ∈ wbsKeys m)
    (hwbs : ∀ k t, lookupW m k = some t → t.wbs = k)
    (k : List Char) (hk : k ∈ sk) : (buildNode m sk k).wbs = k := by
  obtain ⟨t, ht⟩ := Option.isSome_iff_exists.1 ((lookupW_isSome_iff m k).2 ((hmem k).1 hk))
  rw [buildNode_unfold, ht, Option.getD_some, TaskNode.wbs_withSubtasks]
  exact hwbs k t ht

theorem mem_allNodesTask_self : ∀ t : TaskNode, t ∈ allNodesTask t
  | .mk w wt p ps pe ae subs => List.mem_cons_self _ _

theorem mem_allNodesList_of_mem : ∀ (ts : List TaskNode) (t : TaskNode), t ∈ ts →
    t ∈ allNodesList ts
  | t' :: ts, t, h => by
      rw [allNodesList_cons]
      rcases List.mem_cons.1 h with rfl | h
      · exact List.mem_append_left _ (mem_allNodesTask_self t)
      · exact List.mem_append_right _ (mem_allNodesList_of_mem ts t h)

mutual
/-- `allNodesTask` is closed under taking children. -/
theorem allNodes_closed_task : ∀ t : TaskNode, ∀ p ∈ allNodesTask t, ∀ c ∈ p.subtasks,
    c ∈ allNodesTask t
  | .mk w wt pr ps pe ae subs, p, hp, c, hc => by
      rw [allNodesTask_def] at hp ⊢
      rcases List.mem_cons.1 hp with rfl | hp
      · simp only [TaskNode.subtasks] at hc
        exact List.mem_cons_of_mem _ (mem_allNodesList_of_mem subs c hc)
      · exact List.mem_cons_of_mem _ (allNodes_closed_list subs p hp c hc)

/-- `allNodesList` is closed under taking children. -/
theorem allNodes_closed_list : ∀ ts : List TaskNode, ∀ p ∈ allNodesList ts, ∀ c ∈ p.subtasks,
    c ∈ allNodesList ts
  | t :: ts, p, hp, c, hc => by
      rw [allNodesList_cons] at hp ⊢
      rcases List.mem_append.1 hp with hp | hp
      · exact List.mem_append_left _ (allNodes_closed_task t p hp c hc)
      · exact List.mem_append_right _ (allNodes_closed_list ts p hp c hc)
end

/-- The WBS labels of the tree built at a key are pairwise distinct. -/
theorem subtree_wbs_nodup (m : List (List Char × TaskNode)) (sk : List (List Char))
    (hmem : ∀ x, x ∈ sk ↔ x ∈ wbsKeys m)
    (hwbs : ∀ k t, lookupW m k = some t → t.wbs = k)
    (hnd : sk.Nodup)
    (w : List Char) (hw : w ∈ sk) :
    ((allNodesTask (buildNode m sk w)).map TaskNode.wbs).Nodup := by
  obtain ⟨t, ht⟩ := Option.isSome_iff_exists.1 ((lookupW_isSome_iff m w).2 ((hmem w).1 hw))
  have htw : t.wbs = w := hwbs w t ht
  rw [buildNode_unfold, ht, Option.getD_some, allNodesTask_withSubtasks, allNodesList_map,
    List.map_cons, TaskNode.wbs_withSubtasks, htw, List.nodup_cons, List.map_flatMap]
  constructor
  · intro hwin
    obtain ⟨k, hk, hwk⟩ := List.mem_flatMap.1 hwin
    obtain ⟨hksk, hkp, hkne⟩ := (mem_childKeys_iff sk w k).1 hk
    obtain ⟨p, hp, hpw⟩ := List.mem_map.1 hwk
    obtain ⟨_, hchain, _⟩ := subtree_facts m sk hmem hwbs k hksk p hp
    rw [hpw] at hchain
    have h1 := chainUp_length_le (wbsKeys m) w k hchain
    have h2 : w.length < k.length := by
      have := parentW_length k hkne
      rwa [hkp] at this
    omega
  · rw [List.nodup_flatMap]
    refine ⟨fun k hk => subtree_wbs_nodup m sk hmem hwbs hnd k
      ((mem_childKeys_iff sk w k).1 hk).1, ?_⟩
    refine List.Pairwise.imp_of_mem ?_ (hnd.filter _)
    intro k1 k2 hk1 hk2 hne x hx1 hx2
    obtain ⟨hk1sk, hk1p, hk1ne⟩ := (mem_childKeys_iff sk w k1).1 hk1
    obtain ⟨hk2sk, hk2p, hk2ne⟩ := (mem_childKeys_iff sk w k2).1 hk2
    obtain ⟨p1, hp1, hp1w⟩ := List.mem_map.1 hx1
    obtain ⟨p2, hp2, hp2w⟩ := List.mem_map.1 hx2
    obtain ⟨_, hchain1, _⟩ := subtree_facts m sk hmem hwbs k1 hk1sk p1 hp1
    obtain ⟨_, hchain2, _⟩ := subtree_facts m sk hmem hwbs k2 hk2sk p2 hp2
    rw [hp1w] at hchain1
    rw [hp2w] at hchain2
    have hwkeys : w ∈ wbsKeys m := (hmem w).1 hw
    have hlen1 : w.length < k1.length := by
      have := parentW_length k1 hk1ne
      rwa [hk1p] at this
    have hlen2 : w.length < k2.length := by
      have := parentW_length k2 hk2ne
      rwa [hk2p] at this
    rcases List.suffix_or_suffix_of_suffix
        (chainUp_suffix (wbsKeys m) x k1 hchain1)
        (chainUp_suffix (wbsKeys m) x k2 hchain2) with hs | hs
    · exact chain_not_both (wbsKeys m) w k2 k1 hk2p hk2ne hwkeys hlen1
        (fun h => hne h) hs
    · exact chain_not_both (wbsKeys m) w k1 k2 hk1p hk1ne hwkeys hlen2
        (fun h => hne h.symm) hs
termination_by (sk.filter (fun j => decide (w.length < j.length))).length
decreasing_by
  have hlen : w.length < k.length := by
    have := parentW_length k ((mem_childKeys_iff sk w k).1 hk).2.2
    rwa [((mem_childKeys_iff sk w k).1 hk).2.1] at this
  exact length_filter_lt_filter sk _ _
    (fun a _ ha => decide_eq_true (lt_trans hlen (of_decide_eq_true ha)))
    k ((mem_childKeys_iff sk w k).1 hk).1 (decide_eq_true hlen) (by simp)

/-- The forest assembled from the top-level keys has pairwise distinct
WBS labels: no duplicate node. -/
theorem forest_wbs_nodup (m : List (List Char × TaskNode)) (sk : List (List Char))
    (hmem : ∀ x, x ∈ sk ↔ x ∈ wbsKeys m)
    (hwbs : ∀ k t, lookupW m k = some t → t.wbs = k)
    (hnd : sk.Nodup) :
    ((allNodesList ((topKeys sk (wbsKeys m)).map (buildNode m sk))).map
      TaskNode.wbs).Nodup := by
  rw [allNodesList_map, List.map_flatMap, List.nodup_flatMap]
  refine ⟨fun k hk => subtree_wbs_nodup m sk hmem hwbs hnd k
    ((mem_topKeys_iff sk (wbsKeys m) k).1 hk).1, ?_⟩
  refine List.Pairwise.imp_of_mem ?_ (hnd.filter _)
  intro t1 t2 ht1 ht2 hne x hx1 hx2
  obtain ⟨ht1sk, ht1top⟩ := (mem_topKeys_iff sk (wbsKeys m) t1).1 ht1
  obtain ⟨ht2sk, ht2top⟩ := (mem_topKeys_iff sk (wbsKeys m) t2).1 ht2
  obtain ⟨p1, hp1, hp1w⟩ := List.mem_map.1 hx1
  obtain ⟨p2, hp2, hp2w⟩ := List.mem_map.1 hx2
  obtain ⟨_, hchain1, _⟩ := subtree_facts m sk hmem hwbs t1 ht1sk p1 hp1
  obtain ⟨_, hchain2, _⟩ := subtree_facts m sk hmem hwbs t2 ht2sk p2 hp2
  rw [hp1w] at hchain1
  rw [hp2w] at hchain2
  have h1 : chainUp (wbsKeys m) t1 = [t1] := chainUp_of_top _ t1 ht1top
  have h2 : chainUp (wbsKeys m) t2 = [t2] := chainUp_of_top _ t2 ht2top
  rcases List.suffix_or_suffix_of_suffix
      (chainUp_suffix (wbsKeys m) x t1 hchain1)
      (chainUp_suffix (wbsKeys m) x t2 hchain2) with hs | hs
  · rw [h1, h2] at hs
    have ht : t1 ∈ [t2] := hs.subset (mem_chainUp_self (wbsKeys m) t1 |> (h1 ▸ ·))
    exact hne (List.mem_singleton.1 ht)
  · rw [h1, h2] at hs
    have ht : t2 ∈ [t1] := hs.subset (mem_chainUp_self (wbsKeys m) t2 |> (h2 ▸ ·))
    exact hne (List.mem_singleton.1 ht).symm

/-- Every key of the index appears as the WBS of some node of the
assembled forest. -/
theorem key_in_forest (m : List (List Char × TaskNode)) (sk : List (List Char))
    (hmem : ∀ x, x ∈ sk ↔ x ∈ wbsKeys m)
    (hwbs : ∀ k t, lookupW m k = some t → t.wbs = k)
    (k : List Char) (hk : k ∈ sk) :
    k ∈ (allNodesList ((topKeys sk (wbsKeys m)).map (buildNode m sk))).map
      TaskNode.wbs := by
  by_cases hatt : parentW k ≠ [] ∧ parentW k ∈ wbsKeys m
  · have hpsk : parentW k ∈ sk := (hmem _).2 hatt.2
    have ihp := key_in_forest m sk hmem hwbs (parentW k) hpsk
    obtain ⟨p, hpmem, hpwbs⟩ := List.mem_map.1 ihp
    obtain ⟨kk, hkk, hpk⟩ := List.mem_flatMap.1 (by rwa [allNodesList_map] at hpmem)
    obtain ⟨_, _, tE, htE, hpeq⟩ := subtree_facts m sk hmem hwbs kk
      ((mem_topKeys_iff sk (wbsKeys m) kk).1 hkk).1 p hpk
    have hsubt : p.subtasks = (childKeys sk p.wbs).map (buildNode m sk) := by
      conv_lhs => rw [hpeq]
      rw [TaskNode.subtasks_withSubtasks]
    have hkchild : k ∈ childKeys sk p.wbs := by
      rw [hpwbs, mem_childKeys_iff]
      exact ⟨hk, rfl, hatt.1⟩
    have hcmem : buildNode m sk k ∈ p.subtasks := by
      rw [hsubt]
      exact List.mem_map_of_mem _ hkchild
    have hin : buildNode m sk k ∈
        allNodesList ((topKeys sk (wbsKeys m)).map (buildNode m sk)) :=
      allNodes_closed_list _ p hpmem _ hcmem
    rw [List.mem_map]
    exact ⟨buildNode m sk k, hin, buildNode_wbs m sk hmem hwbs k hk⟩
  · have htop : k ∈ topKeys sk (wbsKeys m) := (mem_topKeys_iff sk (wbsKeys m) k).2 ⟨hk, hatt⟩
    have hin : buildNode m sk k ∈
        allNodesList ((topKeys sk (wbsKeys m)).map (buildNode m sk)) :=
      mem_allNodesList_of_mem _ _ (List.mem_map_of_mem _ htop)
    rw [List.mem_map]
    exact ⟨buildNode m sk k, hin, buildNode_wbs m sk hmem hwbs k hk⟩
termination_by k.length
decreasing_by exact parentW_length k hatt.1

/-! ### `recalculate_progress_recursively` preserves tree structure -/

theorem recalcTask_wbs (t : TaskNode) : (recalcTask t).wbs = t.wbs := by
  cases t with
  | mk w wt p ps pe ae subs =>
    cases subs with
    | nil => rfl
    | cons s ss =>
      rw [recalcTask_of_ne_nil w wt p ps pe ae (s :: ss) (List.cons_ne_nil s ss)]
      rfl

theorem wbs_map_recalcList : ∀ ts : List TaskNode,
    (recalcList ts).map TaskNode.wbs = ts.map TaskNode.wbs
  | [] => rfl
  | t :: ts => by
      rw [recalcList_cons, List.map_cons, List.map_cons, recalcTask_wbs,
        wbs_map_recalcList ts]

mutual
theorem allWbs_recalc_task : ∀ t : TaskNode,
    (allNodesTask (recalcTask t)).map TaskNode.wbs = (allNodesTask t).map TaskNode.wbs
  | .mk w wt p ps pe ae [] => rfl
  | .mk w wt p ps pe ae (s :: ss) => by
      rw [recalcTask_of_ne_nil w wt p ps pe ae (s :: ss) (List.cons_ne_nil s ss),
        allNodesTask_def, allNodesTask_def, List.map_cons, List.map_cons]
      rw [show (TaskNode.mk w wt (some (if 0 < totalW (recalcList (s :: ss))
          then (pyRound (wSum (recalcList (s :: ss)) / totalW (recalcList (s :: ss))) : ℚ)
          else 0)) ps pe ae (recalcList (s :: ss))).wbs = w from rfl]
      rw [show (TaskNode.mk w wt p ps pe ae (s :: ss)).wbs = w from rfl]
      rw [allWbs_recalc_list (s :: ss)]

theorem allWbs_recalc_list : ∀ ts : List TaskNode,
    (allNodesList (recalcList ts)).map TaskNode.wbs =
      (allNodesList ts).map TaskNode.wbs
  | [] => rfl
  | t :: ts => by
      rw [recalcList_cons, allNodesList_cons, allNodesList_cons, List.map_append,
        List.map_append, allWbs_recalc_task t, allWbs_recalc_list ts]
end

mutual
/-- Every node of the recalculated tree matches a node of the input tree
with the same WBS, the same weightage and the same child WBS list. -/
theorem recalc_shape_task : ∀ t : TaskNode, ∀ p ∈ allNodesTask (recalcTask t),
    ∃ q ∈ allNodesTask t, p.wbs = q.wbs ∧ p.weightage = q.weightage ∧
      p.subtasks.map TaskNode.wbs = q.subtasks.map TaskNode.wbs
  | .mk w wt pr ps pe ae [], p, hp => by
      rw [recalcTask_of_leaf (.mk w wt pr ps pe ae []) rfl] at hp
      exact ⟨p, hp, rfl, rfl, rfl⟩
  | .mk w wt pr ps pe ae (s :: ss), p, hp => by
      rw [recalcTask_of_ne_nil w wt pr ps pe ae (s :: ss) (List.cons_ne_nil s ss),
        allNodesTask_def] at hp
      rcases List.mem_cons.1 hp with rfl | hp
      · refine ⟨.mk w wt pr ps pe ae (s :: ss), mem_allNodesTask_self _, rfl, rfl, ?_⟩
        simp only [TaskNode.subtasks]
        exact wbs_map_recalcList (s :: ss)
      · obtain ⟨q, hq, hfacts⟩ := recalc_shape_list (s :: ss) p hp
        exact ⟨q, by rw [allNodesTask_def]; exact List.mem_cons_of_mem _ hq, hfacts⟩

theorem recalc_shape_list : ∀ ts : List TaskNode, ∀ p ∈ allNodesList (recalcList ts),
    ∃ q ∈ allNodesList ts, p.wbs = q.wbs ∧ p.weightage = q.weightage ∧
      p.subtasks.map TaskNode.wbs = q.subtasks.map TaskNode.wbs
  | [], p, hp => absurd hp (List.not_mem_nil p)
  | t :: ts, p, hp => by
      rw [recalcList_cons, allNodesList_cons] at hp
      rcases List.mem_append.1 hp with hp | hp
      · obtain ⟨q, hq, hfacts⟩ := recalc_shape_task t p hp
        exact ⟨q, by rw [allNodesList_cons]; exact List.mem_append_left _ hq, hfacts⟩
      · obtain ⟨q, hq, hfacts⟩ := recalc_shape_list ts p hp
        exact ⟨q, by rw [allNodesList_cons]; exact List.mem_append_right _ hq, hfacts⟩
end

/-! ### Facts about every node of the assembled (pre-recalc) forest -/

theorem forest_node_facts (m : List (List Char × TaskNode)) (sk : List (List Char))
    (hmem : ∀ x, x ∈ sk ↔ x ∈ wbsKeys m)
    (hwbs : ∀ k t, lookupW m k = some t → t.wbs = k) :
    ∀ p ∈ allNodesList ((topKeys sk (wbsKeys m)).map (buildNode m sk)),
      p.wbs ∈ sk ∧ ∃ t, lookupW m p.wbs = some t ∧
        p = t.withSubtasks ((childKeys sk p.wbs).map (buildNode m sk)) := by
  intro p hp
  rw [allNodesList_map] at hp
  obtain ⟨kk, hkk, hpk⟩ := List.mem_flatMap.1 hp
  obtain ⟨h1, _, h3⟩ := subtree_facts m sk hmem hwbs kk
    ((mem_topKeys_iff sk (wbsKeys m) kk).1 hkk).1 p hpk
  exact ⟨h1, h3⟩

theorem forest_subtasks_wbs (m : List (List Char × TaskNode)) (sk : List (List Char))
    (hmem : ∀ x, x ∈ sk ↔ x ∈ wbsKeys m)
    (hwbs : ∀ k t, lookupW m k = some t → t.wbs = k) :
    ∀ p ∈ allNodesList ((topKeys sk (wbsKeys m)).map (buildNode m sk)),
      p.subtasks.map TaskNode.wbs = childKeys sk p.wbs := by
  intro p hp
  obtain ⟨hsk, t, ht, hpeq⟩ := forest_node_facts m sk hmem hwbs p hp
  have hsubt : p.subtasks = (childKeys sk p.wbs).map (buildNode m sk) := by
    conv_lhs => rw [hpeq]
    rw [TaskNode.subtasks_withSubtasks]
  rw [hsubt, List.map_map]
  have : ∀ k ∈ childKeys sk p.wbs, (TaskNode.wbs ∘ buildNode m sk) k = id k := by
    intro k hk
    exact buildNode_wbs m sk hmem hwbs k ((mem_childKeys_iff sk p.wbs k).1 hk).1
  rw [List.map_congr_left this, List.map_id]

/-! ### Context facts for `build_task_hierarchy` -/

instance : Inhabited TaskNode := ⟨defaultNode⟩

theorem build_eq (rows : List CsvRow) :
    build_task_hierarchy rows =
      recalcList ((topKeys (List.insertionSort pyLe (wbsKeys (firstPass [] rows)))
          (wbsKeys (firstPass [] rows))).map
        (buildNode (firstPass [] rows)
          (List.insertionSort pyLe (wbsKeys (firstPass [] rows))))) := rfl

theorem build_ctx_mem (rows : List CsvRow) :
    ∀ x, x ∈ List.insertionSort pyLe (wbsKeys (firstPass [] rows)) ↔
      x ∈ wbsKeys (firstPass [] rows) :=
  fun _ => (List.perm_insertionSort pyLe (wbsKeys (firstPass [] rows))).mem_iff

theorem build_ctx_wbs (rows : List CsvRow) :
    ∀ k t, lookupW (firstPass [] rows) k = some t → t.wbs = k := by
  intro k t h
  obtain ⟨r, _, _, ht⟩ := lookup_firstPass_row rows k t h
  rw [ht]
  rfl

theorem build_ctx_nodup (rows : List CsvRow) :
    (List.insertionSort pyLe (wbsKeys (firstPass [] rows))).Nodup :=
  (List.perm_insertionSort pyLe (wbsKeys (firstPass [] rows))).nodup_iff.2
    (nodup_wbsKeys_firstPass rows [] (by simp [wbsKeys]))

/-! ### Claim theorems about `build_task_hierarchy` -/

def exC3rows : List CsvRow :=
  [⟨some ['1'], some (.num 1), none, none⟩,
   ⟨some ['1','.','1'], some (.num 1), none, none⟩,
   ⟨some ['1','.','2'], some (.num 1), none, none⟩,
   ⟨some ['2'], some (.num 1), none, none⟩]

def exC3M : List (List Char × TaskNode) := firstPass [] exC3rows

def exC3Sk : List (List Char) := List.insertionSort pyLe (wbsKeys exC3M)

def nEx (w : List Char) : TaskNode := .mk w 1 (some 0) none none none []

theorem exC3_eval : build_task_hierarchy exC3rows =
    [TaskNode.mk ['1'] 1 (some 0) none none none
      [nEx ['1','.','1'], nEx ['1','.','2']], nEx ['2']] := by
  show recalcList ((topKeys exC3Sk (wbsKeys exC3M)).map (buildNode exC3M exC3Sk)) = _
  rw [show topKeys exC3Sk (wbsKeys exC3M) = [['1'], ['2']] from rfl]
  rw [List.map_cons, List.map_cons, List.map_nil]
  rw [buildNode_unfold, buildNode_unfold]
  rw [show childKeys exC3Sk ['1'] = [['1','.','1'], ['1','.','2']] from rfl,
      show childKeys exC3Sk ['2'] = [] from rfl]
  rw [List.map_cons, List.map_cons, List.map_nil]
  rw [buildNode_unfold, buildNode_unfold]
  rw [show childKeys exC3Sk ['1','.','1'] = [] from rfl,
      show childKeys exC3Sk ['1','.','2'] = [] from rfl]
  rw [show lookupW exC3M ['1'] = some (nEx ['1']) from rfl,
      show lookupW exC3M ['1','.','1'] = some (nEx ['1','.','1']) from rfl,
      show lookupW exC3M ['1','.','2'] = some (nEx ['1','.','2']) from rfl,
      show lookupW exC3M ['2'] = some (nEx ['2']) from rfl]
  simp only [Option.getD_some, nEx, TaskNode.withSubtasks]
  norm_num [recalcList, recalcTask, totalW, wSum, TaskNode.progVal, TaskNode.progress,
    TaskNode.weightage, pyRound, ratFloor_eq]

/-- Claim C3 (amended): in the forest built by `build_task_hierarchy`,
every node's children are exactly the index keys obtained by appending
one dot-segment to its own WBS (a node whose derived parent WBS is empty
or not in the index is top-level), and within each parent the children
appear in ascending *plain string* (code point lexicographic) order —
the order of Python's `sorted` — which agrees with the
claimed numeric-segment order on the example rows
`["1","1.1","1.2","2"]` but not in general. -/
theorem c3_hierarchy_build :
    (∀ rows : List CsvRow, ∀ p ∈ allNodesList (build_task_hierarchy rows),
        (∀ c ∈ p.subtasks, parentW c.wbs = p.wbs ∧ parentW c.wbs ≠ []) ∧
        List.Pairwise pyLe (p.subtasks.map TaskNode.wbs)) ∧
    (∀ rows : List CsvRow, ∀ r ∈ build_task_hierarchy rows,
        ¬(parentW r.wbs ≠ [] ∧ parentW r.wbs ∈ wbsKeys (firstPass [] rows))) ∧
    (∀ rows : List CsvRow, ∀ k ∈ wbsKeys (firstPass [] rows),
        k ∈ (allNodesList (build_task_hierarchy rows)).map TaskNode.wbs) ∧
    ((build_task_hierarchy exC3rows).map TaskNode.wbs = [['1'], ['2']] ∧
      ((build_task_hierarchy exC3rows).headI.subtasks).map TaskNode.wbs =
        [['1','.','1'], ['1','.','2']]) := by
  refine ⟨?_, ?_, ?_, ?_⟩
  · intro rows p hp
    rw [build_eq rows] at hp
    obtain ⟨q, hq, hwbs_eq, _, hsubs_eq⟩ := recalc_shape_list _ p hp
    have hcw := forest_subtasks_wbs (firstPass [] rows) _ (build_ctx_mem rows)
      (build_ctx_wbs rows) q hq
    constructor
    · intro c hc
      have : c.wbs ∈ childKeys (List.insertionSort pyLe (wbsKeys (firstPass [] rows)))
          q.wbs := by
        rw [← hcw, ← hsubs_eq]
        exact List.mem_map_of_mem _ hc
      obtain ⟨_, hpar, hne⟩ := (mem_childKeys_iff _ _ _).1 this
      rw [← hwbs_eq] at hpar
      exact ⟨hpar, hne⟩
    · rw [hsubs_eq, hcw]
      exact (List.sorted_insertionSort pyLe (wbsKeys (firstPass [] rows))).filter _
  · intro rows r hr
    rw [build_eq rows] at hr
    have h1 : r.wbs ∈ (recalcList ((topKeys
        (List.insertionSort pyLe (wbsKeys (firstPass [] rows)))
        (wbsKeys (firstPass [] rows))).map
          (buildNode (firstPass [] rows)
            (List.insertionSort pyLe (wbsKeys (firstPass [] rows)))))).map TaskNode.wbs :=
      List.mem_map_of_mem _ hr
    rw [wbs_map_recalcList, List.map_map] at h1
    have h2 : ∀ k ∈ topKeys (List.insertionSort pyLe (wbsKeys (firstPass [] rows)))
        (wbsKeys (firstPass [] rows)),
        (TaskNode.wbs ∘ buildNode (firstPass [] rows)
          (List.insertionSort pyLe (wbsKeys (firstPass [] rows)))) k = id k := by
      intro k hk
      exact buildNode_wbs _ _ (build_ctx_mem rows) (build_ctx_wbs rows) k
        ((mem_topKeys_iff _ _ k).1 hk).1
    rw [List.map_congr_left h2, List.map_id] at h1
    exact ((mem_topKeys_iff _ _ r.wbs).1 h1).2
  · intro rows k hk
    rw [build_eq rows, allWbs_recalc_list]
    exact key_in_forest (firstPass [] rows) _ (build_ctx_mem rows) (build_ctx_wbs rows) k
      (((build_ctx_mem rows) k).2 hk)
  · rw [exC3_eval]
    constructor
    · rfl
    · rfl

/-- The ascending "lexicographic-numeric" order of WBS codes that the
specification describes for sibling lists: compare the dot-separated
segments position by position, each segment as a number.  (This
definition follows the specification's words; it is the standard against
which the code's plain string sort is measured.) -/
def numSegLe (a b : List Char) : Prop :=
  (splitDots a).map digitsToNat = (splitDots b).map digitsToNat ∨
    List.Lex (· < ·) ((splitDots a).map digitsToNat) ((splitDots b).map digitsToNat)

def exC3bRows : List CsvRow :=
  [⟨some ['1'], some (.num 1), none, none⟩,
   ⟨some ['1','.','2'], some (.num 1), none, none⟩,
   ⟨some ['1','.','1','0'], some (.num 1), none, none⟩]

def exC3bM : List (List Char × TaskNode) := firstPass [] exC3bRows

def exC3bSk : List (List Char) := List.insertionSort pyLe (wbsKeys exC3bM)

theorem exC3b_eval : build_task_hierarchy exC3bRows =
    [TaskNode.mk ['1'] 1 (some 0) none none none
      [nEx ['1','.','1','0'], nEx ['1','.','2']]] := by
  show recalcList ((topKeys exC3bSk (wbsKeys exC3bM)).map (buildNode exC3bM exC3bSk)) = _
  rw [show topKeys exC3bSk (wbsKeys exC3bM) = [['1']] from rfl]
  rw [List.map_cons, List.map_nil]
  rw [buildNode_unfold]
  rw [show childKeys exC3bSk ['1'] = [['1','.','1','0'], ['1','.','2']] from rfl]
  rw [List.map_cons, List.map_cons, List.map_nil]
  rw [buildNode_unfold, buildNode_unfold]
  rw [show childKeys exC3bSk ['1','.','1','0'] = [] from rfl,
      show childKeys exC3bSk ['1','.','2'] = [] from rfl]
  rw [show lookupW exC3bM ['1'] = some (nEx ['1']) from rfl,
      show lookupW exC3bM ['1','.','1','0'] = some (nEx ['1','.','1','0']) from rfl,
      show lookupW exC3bM ['1','.','2'] = some (nEx ['1','.','2']) from rfl]
  simp only [Option.getD_some, nEx, TaskNode.withSubtasks]
  norm_num [recalcList, recalcTask, totalW, wSum, TaskNode.progVal, TaskNode.progress,
    TaskNode.weightage, pyRound, ratFloor_eq]

/-- Claim C3 counterexample: on rows with WBS `["1","1.2","1.10"]` the
children of node "1" come out in plain string order `["1.10","1.2"]`,
which is *not* ascending in the numeric segment order the claim
describes (numerically 1.2 < 1.10, since 2 < 10). -/
theorem c3_counterexample_order :
    ((build_task_hierarchy exC3bRows).headI.subtasks).map TaskNode.wbs =
      [['1','.','1','0'], ['1','.','2']] ∧
    ¬ numSegLe ['1','.','1','0'] ['1','.','2'] := by
  constructor
  · rw [exC3b_eval]
    rfl
  · have e1 : (splitDots ['1','.','1','0']).map digitsToNat = [1, 10] := rfl
    have e2 : (splitDots ['1','.','2']).map digitsToNat = [1, 2] := rfl
    intro h
    rw [numSegLe, e1, e2] at h
    rcases h with heq | hlex
    · exact absurd heq (by decide)
    · cases hlex with
      | cons h' =>
        cases h' with
        | rel hr => exact absurd hr (by decide)
      | rel hr => exact absurd hr (by decide)

def exC6row : CsvRow := ⟨some ['1'], some (.num (-1)), none, none⟩

theorem exC6_eval : build_task_hierarchy [exC6row] =
    [TaskNode.mk ['1'] (-1) (some 0) none none none []] := by
  show recalcList ((topKeys (List.insertionSort pyLe (wbsKeys (firstPass [] [exC6row])))
      (wbsKeys (firstPass [] [exC6row]))).map _) = _
  rw [show topKeys (List.insertionSort pyLe (wbsKeys (firstPass [] [exC6row])))
      (wbsKeys (firstPass [] [exC6row])) = [['1']] from rfl]
  rw [List.map_cons, List.map_nil, buildNode_unfold]
  rw [show childKeys (List.insertionSort pyLe (wbsKeys (firstPass [] [exC6row]))) ['1']
      = [] from rfl]
  rw [show lookupW (firstPass [] [exC6row]) ['1'] =
      some (TaskNode.mk ['1'] (-1) (some 0) none none none []) from rfl]
  rfl

/-- Claim C6 counterexample: a row whose weightage cell holds the number
-1 produces a node with weightage -1 — the coercion does not clamp to a
non-negative value. -/
theorem c6_counterexample_negative :
    (build_task_hierarchy [exC6row]).map TaskNode.weightage = [-1] ∧
    ¬ (0 : ℚ) ≤ -1 := by
  constructor
  · rw [exC6_eval]
    rfl
  · norm_num

/-- Claim C6 (amended): `build_task_hierarchy` coerces the weightage
cell to a real number with no error: a missing cell, a `None`/NaN value
or a non-numeric string becomes `0.0`, and a numeric value is taken as
is — including a negative one, so the result is not necessarily
non-negative.  Every node of the built forest carries the coerced
weightage of one of the input rows. -/
theorem c6_weightage_coercion :
    (coerceWeightage none = 0) ∧
    (coerceWeightage (some .null) = 0) ∧
    (∀ s, pyFloatOfStr s = none → coerceWeightage (some (.str s)) = 0) ∧
    (∀ q, coerceWeightage (some (.num q)) = q) ∧
    (∀ rows : List CsvRow, ∀ p ∈ allNodesList (build_task_hierarchy rows),
        ∃ r ∈ rows, p.weightage = coerceWeightage r.weightage) := by
  refine ⟨rfl, rfl, ?_, fun _ => rfl, ?_⟩
  · intro s hs
    rw [coerceWeightage, hs]
    rfl
  · intro rows p hp
    rw [build_eq rows] at hp
    obtain ⟨q, hq, _, hweq, _⟩ := recalc_shape_list _ p hp
    obtain ⟨_, t, ht, hqeq⟩ := forest_node_facts (firstPass [] rows) _
      (build_ctx_mem rows) (build_ctx_wbs rows) q hq
    obtain ⟨r, hr, _, hteq⟩ := lookup_firstPass_row rows q.wbs t ht
    refine ⟨r, hr, ?_⟩
    rw [hweq]
    conv_lhs => rw [hqeq]
    rw [TaskNode.weightage_withSubtasks, hteq]
    rfl

def exC8rows : List CsvRow :=
  [⟨some ['1'], some (.num 1), none, none⟩,
   ⟨some ['1'], some (.num 2), none, none⟩]

theorem exC8_eval : build_task_hierarchy exC8rows =
    [TaskNode.mk ['1'] 2 (some 0) none none none []] := by
  show recalcList ((topKeys (List.insertionSort pyLe (wbsKeys (firstPass [] exC8rows)))
      (wbsKeys (firstPass [] exC8rows))).map _) = _
  rw [show topKeys (List.insertionSort pyLe (wbsKeys (firstPass [] exC8rows)))
      (wbsKeys (firstPass [] exC8rows)) = [['1']] from rfl]
  rw [List.map_cons, List.map_nil, buildNode_unfold]
  rw [show childKeys (List.insertionSort pyLe (wbsKeys (firstPass [] exC8rows))) ['1']
      = [] from rfl]
  rw [show lookupW (firstPass [] exC8rows) ['1'] =
      some (TaskNode.mk ['1'] 2 (some 0) none none none []) from rfl]
  rfl

/-- Claim C8: with duplicate WBS codes among the rows, the index keeps
exactly the last such row's node (silent overwrite, no error), the
forest contains every surviving WBS exactly once (no duplicate node),
and on two rows both carrying WBS "1" the resulting forest is the single
node built from the second row. -/
theorem c8_duplicate_wbs_last_writer :
    (∀ (rows : List CsvRow) (k : List Char),
        lookupW (firstPass [] rows) k =
          ((rows.filter (fun r => decide (r.wbs = some k))).getLast?).map
            (fun r => mkTaskOfRow r k)) ∧
    (∀ rows : List CsvRow,
        ((allNodesList (build_task_hierarchy rows)).map TaskNode.wbs).Nodup) ∧
    (∀ (rows : List CsvRow) (k : List Char), k ∈ wbsKeys (firstPass [] rows) →
        k ∈ (allNodesList (build_task_hierarchy rows)).map TaskNode.wbs) ∧
    build_task_hierarchy exC8rows = [TaskNode.mk ['1'] 2 (some 0) none none none []] := by
  refine ⟨?_, ?_, ?_, exC8_eval⟩
  · intro rows k
    rw [lookup_firstPass rows [] k]
    cases hlast : (rows.filter (fun r => decide (r.wbs = some k))).getLast? with
    | none => rfl
    | some r => rfl
  · intro rows
    rw [build_eq rows, allWbs_recalc_list]
    exact forest_wbs_nodup (firstPass [] rows) _ (build_ctx_mem rows)
      (build_ctx_wbs rows) (build_ctx_nodup rows)
  · intro rows k hk
    rw [build_eq rows, allWbs_recalc_list]
    exact key_in_forest (firstPass [] rows) _ (build_ctx_mem rows) (build_ctx_wbs rows) k
      (((build_ctx_mem rows) k).2 hk)

/-! ### `get_s_curve_data` (src/app.py lines 503-565) -/

/-- The payload of `get_s_curve_data` when it is non-empty: three
parallel per-day lists.  Dates are day numbers (the `'%d-%b-%y'` string
formatting of src/app.py line 545 is abstracted away). -/
structure SCurve where
  dates : List ℤ
  planned_progress : List ℚ
  actual_progress : List ℚ

mutual
/-- The leaf selection of `flatten_tasks` (src/app.py lines 506-513): a
task with no subtasks and weightage > 0 is collected; a task with
subtasks is recursed into and itself never collected; a leaf of
weightage ≤ 0 is dropped. -/
def sLeafTask : TaskNode → List TaskNode
  | .mk w wt p ps pe ae [] => if 0 < wt then [.mk w wt p ps pe ae []] else []
  | .mk w wt p ps pe ae (s :: ss) => sLeafList (s :: ss)

def sLeafList : List TaskNode → List TaskNode
  | [] => []
  | t :: ts => sLeafTask t ++ sLeafList ts
end

/-- The present (truthy) date fields of a leaf in the order the window
scan reads them (src/app.py lines 522-524). -/
def datesPresent (t : TaskNode) : List PDate :=
  t.plannedStartDate.toList ++ t.plannedEndDate.toList ++ t.actualEndDate.toList

/-- Parsing the present date fields: the first malformed one raises
`ValueError`/`TypeError`, aborting the whole `try` block of src/app.py
lines 519-530; otherwise the list of parsed day numbers. -/
def seqDates : List PDate → Option (List ℤ)
  | [] => some []
  | .mal :: _ => none
  | .day n :: rest => (seqDates rest).map (fun l => n :: l)

/-- Python's `min` on a non-empty list (`min(all_dates)`, line 527). -/
def listMin : List ℤ → ℤ
  | [] => 0
  | x :: xs => xs.foldl min x

/-- Python's `max` on a non-empty list (`max(all_dates)`, line 528). -/
def listMax : List ℤ → ℤ
  | [] => 0
  | x :: xs => xs.foldl max x

/-- The day sequence of the `while current_date <= loop_end_date` loop
(src/app.py lines 544-563), one day at a time, empty when the start is
past the end. -/
def dayRange (s f : ℤ) : List ℤ :=
  (List.range (f + 1 - s).toNat).map (fun (i : ℕ) => s + (i : ℤ))

/-- `planned_weight_done` at day `d` (src/app.py lines 548-551): summed
weightage of the selected leaves whose `plannedEndDate` is present and
at most `d`.  (Reached only after the window scan checked that every
present date parses, so the malformed branch cannot arise.) -/
def plannedWeightDone (leaves : List TaskNode) (d : ℤ) : ℚ :=
  ((leaves.filter (fun t => match t.plannedEndDate with
    | some (.day n) => decide (n ≤ d)
    | _ => false)).map TaskNode.weightage).sum

/-- `actual_weight_done` at day `d` (src/app.py lines 554-557). -/
def actualWeightDone (leaves : List TaskNode) (d : ℤ) : ℚ :=
  ((leaves.filter (fun t => match t.actualEndDate with
    | some (.day n) => decide (n ≤ d)
    | _ => false)).map TaskNode.weightage).sum

/-- `get_s_curve_data(tasks)` (src/app.py lines 503-565).  `today` is
`datetime.now()` as a day number; `none` models every `return {}` (no
selected leaves; a present date failing to parse; no date at all; zero
total weightage). -/
def get_s_curve_data (tasks : List TaskNode) (today : ℤ) : Option SCurve :=
  match sLeafList tasks with
  | [] => none
  | l :: ls =>
    match seqDates ((l :: ls).flatMap datesPresent) with
    | none => none
    | some [] => none
    | some (d :: ds) =>
      let total := ((l :: ls).map TaskNode.weightage).sum
      if total = 0 then none
      else
        let days := dayRange (listMin (d :: ds)) (min (listMax (d :: ds)) today)
        some ⟨days,
          days.map (fun dd => pyRound2 (plannedWeightDone (l :: ls) dd / total * 100)),
          days.map (fun dd => pyRound2 (actualWeightDone (l :: ls) dd / total * 100))⟩

theorem mem_dayRange (s f d : ℤ) (h : d ∈ dayRange s f) : s ≤ d ∧ d ≤ f := by
  unfold dayRange at h
  obtain ⟨i, hi, hd⟩ := List.mem_map.1 h
  rw [List.mem_range] at hi
  omega

/-! ### Bounds and monotonicity of the rounding -/

theorem pyRound_eq (q : ℚ) :
    pyRound q = if q - ⌊q⌋ < 1/2 then ⌊q⌋
      else if 1/2 < q - ⌊q⌋ then ⌊q⌋ + 1
      else if Even ⌊q⌋ then ⌊q⌋ else ⌊q⌋ + 1 := by
  simp only [pyRound, ratFloor_eq]

theorem floor_le_pyRound (q : ℚ) : ⌊q⌋ ≤ pyRound q := by
  rw [pyRound_eq]
  split_ifs <;> omega

theorem pyRound_le_floor_add_one (q : ℚ) : pyRound q ≤ ⌊q⌋ + 1 := by
  rw [pyRound_eq]
  split_ifs <;> omega

theorem pyRound_mono {q r : ℚ} (h : q ≤ r) : pyRound q ≤ pyRound r := by
  have hf : ⌊q⌋ ≤ ⌊r⌋ := Int.floor_mono h
  rcases lt_or_eq_of_le hf with hlt | heq
  · calc pyRound q ≤ ⌊q⌋ + 1 := pyRound_le_floor_add_one q
      _ ≤ ⌊r⌋ := by omega
      _ ≤ pyRound r := floor_le_pyRound r
  · rw [pyRound_eq, pyRound_eq, ← heq]
    have hfr : q - (⌊q⌋ : ℚ) ≤ r - (⌊q⌋ : ℚ) := by linarith
    split_ifs <;> first | omega | linarith

theorem pyRound_intCast (n : ℤ) : pyRound ((n : ℤ) : ℚ) = n := by
  rw [pyRound_eq, Int.floor_intCast]
  norm_num

theorem pyRound2_mono {q r : ℚ} (h : q ≤ r) : pyRound2 q ≤ pyRound2 r := by
  unfold pyRound2
  have := pyRound_mono (mul_le_mul_of_nonneg_right h (by norm_num : (0:ℚ) ≤ 100))
  have hc : ((pyRound (q * 100) : ℤ) : ℚ) ≤ ((pyRound (r * 100) : ℤ) : ℚ) :=
    Int.cast_le.2 this
  linarith

theorem pyRound2_nonneg {q : ℚ} (h : 0 ≤ q) : 0 ≤ pyRound2 q := by
  unfold pyRound2
  have h0 : pyRound ((0 : ℤ) : ℚ) ≤ pyRound (q * 100) := by
    apply pyRound_mono
    push_cast
    nlinarith
  rw [pyRound_intCast] at h0
  have hc : ((0 : ℤ) : ℚ) ≤ ((pyRound (q * 100) : ℤ) : ℚ) := Int.cast_le.2 h0
  simp only [Int.cast_zero] at hc
  linarith

theorem pyRound2_le_100 {q : ℚ} (h : q ≤ 100) : pyRound2 q ≤ 100 := by
  unfold pyRound2
  have h0 : pyRound (q * 100) ≤ pyRound ((10000 : ℤ) : ℚ) := by
    apply pyRound_mono
    push_cast
    nlinarith
  rw [pyRound_intCast] at h0
  have hc : ((pyRound (q * 100) : ℤ) : ℚ) ≤ ((10000 : ℤ) : ℚ) := Int.cast_le.2 h0
  push_cast at hc
  linarith

mutual
/-- Every selected leaf has positive weightage (the selection condition
of src/app.py line 509). -/
theorem sLeafTask_pos : ∀ t : TaskNode, ∀ x ∈ sLeafTask t, 0 < x.weightage
  | .mk w wt p ps pe ae [], x, hx => by
      simp only [sLeafTask] at hx
      split_ifs at hx with hwt
      · rcases List.mem_singleton.1 hx with rfl
        exact hwt
      · cases hx
  | .mk w wt p ps pe ae (s :: ss), x, hx => sLeafList_pos (s :: ss) x hx

theorem sLeafList_pos : ∀ ts : List TaskNode, ∀ x ∈ sLeafList ts, 0 < x.weightage
  | t :: ts, x, hx => by
      rw [show sLeafList (t :: ts) = sLeafTask t ++ sLeafList ts from rfl] at hx
      rcases List.mem_append.1 hx with hx | hx
      · exact sLeafTask_pos t x hx
      · exact sLeafList_pos ts x hx
  | [], x, hx => absurd hx (List.not_mem_nil x)
end

theorem wsum_nonneg : ∀ l : List TaskNode, (∀ t ∈ l, 0 ≤ t.weightage) →
    0 ≤ (l.map TaskNode.weightage).sum
  | [], _ => by simp
  | t :: ts, h => by
      rw [List.map_cons, List.sum_cons]
      exact add_nonneg (h t (List.mem_cons_self t ts))
        (wsum_nonneg ts (fun x hx => h x (List.mem_cons_of_mem t hx)))

theorem wsum_pos (l : List TaskNode) (hne : l ≠ []) (h : ∀ t ∈ l, 0 < t.weightage) :
    0 < (l.map TaskNode.weightage).sum := by
  cases l with
  | nil => exact absurd rfl hne
  | cons t ts =>
    rw [List.map_cons, List.sum_cons]
    exact add_pos_of_pos_of_nonneg (h t (List.mem_cons_self t ts))
      (wsum_nonneg ts (fun x hx => le_of_lt (h x (List.mem_cons_of_mem t hx))))

theorem sum_filter_le_of_imp : ∀ (l : List TaskNode) (p q : TaskNode → Bool),
    (∀ t ∈ l, p t = true → q t = true) → (∀ t ∈ l, 0 ≤ t.weightage) →
    ((l.filter p).map TaskNode.weightage).sum ≤ ((l.filter q).map TaskNode.weightage).sum
  | [], p, q, _, _ => by simp
  | t :: ts, p, q, himp, hnn => by
      have ih := sum_filter_le_of_imp ts p q
        (fun x hx => himp x (List.mem_cons_of_mem t hx))
        (fun x hx => hnn x (List.mem_cons_of_mem t hx))
      by_cases hp : p t = true
      · rw [List.filter_cons_of_pos hp,
          List.filter_cons_of_pos (himp t (List.mem_cons_self t ts) hp),
          List.map_cons, List.map_cons, List.sum_cons, List.sum_cons]
        exact add_le_add_left ih _
      · rw [List.filter_cons_of_neg (by simpa using hp)]
        rcases hq : q t with _ | _
        · rw [List.filter_cons_of_neg (by simp [hq])]
          exact ih
        · rw [List.filter_cons_of_pos hq, List.map_cons, List.sum_cons]
          have := hnn t (List.mem_cons_self t ts)
          linarith

theorem sum_filter_le_sum (l : List TaskNode) (p : TaskNode → Bool)
    (hnn : ∀ t ∈ l, 0 ≤ t.weightage) :
    ((l.filter p).map TaskNode.weightage).sum ≤ (l.map TaskNode.weightage).sum := by
  have := sum_filter_le_of_imp l p (fun _ => true) (fun _ _ _ => rfl) hnn
  rwa [List.filter_true] at this

theorem plannedWeightDone_mono (leaves : List TaskNode)
    (hnn : ∀ t ∈ leaves, 0 ≤ t.weightage) {d d' : ℤ} (hdd : d ≤ d') :
    plannedWeightDone leaves d ≤ plannedWeightDone leaves d' := by
  apply sum_filter_le_of_imp leaves _ _ _ hnn
  intro t _ hp
  cases hpe : t.plannedEndDate with
  | none => rw [hpe] at hp; exact Bool.noConfusion hp
  | some pd =>
    cases pd with
    | mal => rw [hpe] at hp; exact Bool.noConfusion hp
    | day n =>
      rw [hpe] at hp
      have hn : n ≤ d := of_decide_eq_true hp
      exact decide_eq_true (by omega)

theorem actualWeightDone_mono (leaves : List TaskNode)
    (hnn : ∀ t ∈ leaves, 0 ≤ t.weightage) {d d' : ℤ} (hdd : d ≤ d') :
    actualWeightDone leaves d ≤ actualWeightDone leaves d' := by
  apply sum_filter_le_of_imp leaves _ _ _ hnn
  intro t _ hp
  cases hpe : t.actualEndDate with
  | none => rw [hpe] at hp; exact Bool.noConfusion hp
  | some pd =>
    cases pd with
    | mal => rw [hpe] at hp; exact Bool.noConfusion hp
    | day n =>
      rw [hpe] at hp
      have hn : n ≤ d := of_decide_eq_true hp
      exact decide_eq_true (by omega)

theorem pairwise_dayRange (s f : ℤ) : (dayRange s f).Pairwise (· ≤ ·) := by
  unfold dayRange
  rw [List.pairwise_map]
  exact (List.pairwise_lt_range _).imp (fun hlt => by omega)

/-- Shape of a non-empty `get_s_curve_data` result. -/
theorem get_s_curve_some (ts : List TaskNode) (today : ℤ) (sc : SCurve)
    (h : get_s_curve_data ts today = some sc) :
    ∃ l ls d ds, sLeafList ts = l :: ls ∧
      seqDates ((l :: ls).flatMap datesPresent) = some (d :: ds) ∧
      ((l :: ls).map TaskNode.weightage).sum ≠ 0 ∧
      sc = ⟨dayRange (listMin (d :: ds)) (min (listMax (d :: ds)) today),
        (dayRange (listMin (d :: ds)) (min (listMax (d :: ds)) today)).map
          (fun dd => pyRound2 (plannedWeightDone (l :: ls) dd /
            ((l :: ls).map TaskNode.weightage).sum * 100)),
        (dayRange (listMin (d :: ds)) (min (listMax (d :: ds)) today)).map
          (fun dd => pyRound2 (actualWeightDone (l :: ls) dd /
            ((l :: ls).map TaskNode.weightage).sum * 100))⟩ := by
  cases hl : sLeafList ts with
  | nil =>
    simp only [get_s_curve_data, hl] at h
    cases h
  | cons l ls =>
    simp only [get_s_curve_data, hl] at h
    split at h
    · cases h
    · cases h
    · rename_i d ds hd
      split at h
      · cases h
      · rename_i ht
        exact ⟨l, ls, d, ds, rfl, hd, ht, (Option.some.inj h).symm⟩

/-! ### Claim theorems about `get_s_curve_data` -/

/-- Claim C7: the curve's day sequence runs from the window start to
`min(window-end, today)` inclusive, so no produced date ever exceeds
`today` — in particular whenever `today` precedes the window end the
sequence never extrapolates into the future. -/
theorem c7_window_clamp (ts : List TaskNode) (today : ℤ) (sc : SCurve)
    (h : get_s_curve_data ts today = some sc) :
    (∃ ds, seqDates ((sLeafList ts).flatMap datesPresent) = some ds ∧
        sc.dates = dayRange (listMin ds) (min (listMax ds) today)) ∧
    ∀ d ∈ sc.dates, d ≤ today := by
  obtain ⟨l, ls, d, ds, hl, hd, ht, hsc⟩ := get_s_curve_some ts today sc h
  constructor
  · exact ⟨d :: ds, by rw [hl]; exact hd, by rw [hsc]⟩
  · intro x hx
    rw [hsc] at hx
    exact le_trans (mem_dayRange _ _ x hx).2 (min_le_right _ _)

def exCurveTs : List TaskNode := [.mk ['1'] 1 (some 0) none (some (.day 0)) none []]

def exCurveSC : SCurve := ⟨[0], [100], [0]⟩

theorem exCurve_eval : get_s_curve_data exCurveTs 5 = some exCurveSC := by
  have hleaf : sLeafList exCurveTs = [TaskNode.mk ['1'] 1 (some 0) none (some (.day 0)) none []] := by
    norm_num [exCurveTs, sLeafList, sLeafTask]
  simp only [get_s_curve_data, hleaf]
  norm_num [datesPresent, seqDates, TaskNode.plannedStartDate, TaskNode.plannedEndDate,
    TaskNode.actualEndDate, TaskNode.weightage, listMin, listMax, dayRange,
    plannedWeightDone, actualWeightDone, pyRound2, pyRound, ratFloor_eq, exCurveSC,
    List.filter, List.range_succ]

/-- Witness for C7 at a one-leaf forest with planned end day 0 and
`today = 5`. -/
theorem c7_window_clamp_witness :
    ((∃ ds, seqDates ((sLeafList exCurveTs).flatMap datesPresent) = some ds ∧
        exCurveSC.dates = dayRange (listMin ds) (min (listMax ds) 5)) ∧
      ∀ d ∈ exCurveSC.dates, d ≤ 5) :=
  c7_window_clamp exCurveTs 5 exCurveSC exCurve_eval

/-- Claim C5: both curves of `get_s_curve_data` are non-decreasing in
the day index, and every value lies in [0, 100]. -/
theorem c5_curves_monotone_bounded (ts : List TaskNode) (today : ℤ) (sc : SCurve)
    (h : get_s_curve_data ts today = some sc) :
    sc.planned_progress.Pairwise (· ≤ ·) ∧
    sc.actual_progress.Pairwise (· ≤ ·) ∧
    (∀ v ∈ sc.planned_progress, 0 ≤ v ∧ v ≤ 100) ∧
    (∀ v ∈ sc.actual_progress, 0 ≤ v ∧ v ≤ 100) := by
  obtain ⟨l, ls, d, ds, hl, hd, ht, hsc⟩ := get_s_curve_some ts today sc h
  have hpos : ∀ t ∈ (l :: ls), 0 < t.weightage := by
    intro t htm
    exact sLeafList_pos ts t (by rwa [hl])
  have hnn : ∀ t ∈ (l :: ls), 0 ≤ t.weightage := fun t htm => le_of_lt (hpos t htm)
  have htpos : 0 < ((l :: ls).map TaskNode.weightage).sum :=
    wsum_pos _ (List.cons_ne_nil l ls) hpos
  set total := ((l :: ls).map TaskNode.weightage).sum with htot
  have hratio : ∀ (wd : ℤ → ℚ), (∀ {a b : ℤ}, a ≤ b → wd a ≤ wd b) →
      ∀ {a b : ℤ}, a ≤ b →
        pyRound2 (wd a / total * 100) ≤ pyRound2 (wd b / total * 100) := by
    intro wd hmono a b hab
    apply pyRound2_mono
    have h1 : wd a / total ≤ wd b / total := by
      gcongr
      exact hmono hab
    linarith
  have hbounds : ∀ (wd : ℤ → ℚ), (∀ x, 0 ≤ wd x) → (∀ x, wd x ≤ total) →
      ∀ x, 0 ≤ pyRound2 (wd x / total * 100) ∧ pyRound2 (wd x / total * 100) ≤ 100 := by
    intro wd hn hle x
    have h0 : 0 ≤ wd x / total := div_nonneg (hn x) (le_of_lt htpos)
    have h1 : wd x / total ≤ 1 := (div_le_one htpos).2 (hle x)
    constructor
    · exact pyRound2_nonneg (by linarith)
    · exact pyRound2_le_100 (by linarith)
  have hpmono : ∀ {a b : ℤ}, a ≤ b →
      plannedWeightDone (l :: ls) a ≤ plannedWeightDone (l :: ls) b :=
    fun hab => plannedWeightDone_mono (l :: ls) hnn hab
  have hamono : ∀ {a b : ℤ}, a ≤ b →
      actualWeightDone (l :: ls) a ≤ actualWeightDone (l :: ls) b :=
    fun hab => actualWeightDone_mono (l :: ls) hnn hab
  have hpnn : ∀ x, 0 ≤ plannedWeightDone (l :: ls) x :=
    fun x => wsum_nonneg _ (fun t htm => hnn t (List.mem_filter.1 htm).1)
  have hann : ∀ x, 0 ≤ actualWeightDone (l :: ls) x :=
    fun x => wsum_nonneg _ (fun t htm => hnn t (List.mem_filter.1 htm).1)
  have hple : ∀ x, plannedWeightDone (l :: ls) x ≤ total :=
    fun x => sum_filter_le_sum (l :: ls) _ hnn
  have hale : ∀ x, actualWeightDone (l :: ls) x ≤ total :=
    fun x => sum_filter_le_sum (l :: ls) _ hnn
  rw [hsc]
  refine ⟨?_, ?_, ?_, ?_⟩
  · rw [List.pairwise_map]
    exact (pairwise_dayRange _ _).imp (fun hab => hratio _ hpmono hab)
  · rw [List.pairwise_map]
    exact (pairwise_dayRange _ _).imp (fun hab => hratio _ hamono hab)
  · intro v hv
    obtain ⟨x, _, rfl⟩ := List.mem_map.1 hv
    exact hbounds _ hpnn hple x
  · intro v hv
    obtain ⟨x, _, rfl⟩ := List.mem_map.1 hv
    exact hbounds _ hann hale x

/-- Witness for C5 at the same one-leaf forest. -/
theorem c5_curves_witness :
    (exCurveSC.planned_progress.Pairwise (· ≤ ·) ∧
      exCurveSC.actual_progress.Pairwise (· ≤ ·) ∧
      (∀ v ∈ exCurveSC.planned_progress, 0 ≤ v ∧ v ≤ 100) ∧
      (∀ v ∈ exCurveSC.actual_progress, 0 ≤ v ∧ v ≤ 100)) :=
  c5_curves_monotone_bounded exCurveTs 5 exCurveSC exCurve_eval

theorem seqDates_eq_none_iff : ∀ ds : List PDate, seqDates ds = none ↔ PDate.mal ∈ ds
  | [] => by simp [seqDates]
  | .mal :: rest => by simp [seqDates]
  | .day n :: rest => by
      simp only [seqDates, Option.map_eq_none']
      rw [seqDates_eq_none_iff rest]
      simp

theorem seqDates_eq_some_nil : ∀ ds : List PDate, seqDates ds = some [] ↔ ds = []
  | [] => by simp [seqDates]
  | .mal :: rest => by simp [seqDates]
  | .day n :: rest => by simp [seqDates, Option.map_eq_some']

/-- Claim C4 (amended): the curve portion comes back empty exactly when
there is no selected leaf, or some selected leaf carries a *present but
unparsable* date — the `try` of src/app.py lines 519-530 wraps the scan
over all leaves, so one bad date string empties the whole curve — or no
selected leaf carries any date at all.  Leaves whose date fields are
absent are merely excluded from the window; a leaf whose date fails to
parse aborts the whole computation, not only its own contribution. -/
theorem c4_empty_curve_iff (ts : List TaskNode) (today : ℤ) :
    get_s_curve_data ts today = none ↔
      sLeafList ts = [] ∨ (∃ t ∈ sLeafList ts, PDate.mal ∈ datesPresent t) ∨
        ∀ t ∈ sLeafList ts, datesPresent t = [] := by
  cases hl : sLeafList ts with
  | nil =>
    simp [get_s_curve_data, hl]
  | cons l ls =>
    simp only [get_s_curve_data, hl]
    cases hd : seqDates ((l :: ls).flatMap datesPresent) with
    | none =>
      refine iff_of_true rfl (Or.inr (Or.inl ?_))
      have hmal : PDate.mal ∈ (l :: ls).flatMap datesPresent :=
        (seqDates_eq_none_iff _).1 hd
      obtain ⟨t, htm, hmm⟩ := List.mem_flatMap.1 hmal
      exact ⟨t, htm, hmm⟩
    | some ds0 =>
      cases ds0 with
      | nil =>
        have hflat : (l :: ls).flatMap datesPresent = [] := (seqDates_eq_some_nil _).1 hd
        refine iff_of_true rfl (Or.inr (Or.inr ?_))
        intro t htm
        exact List.flatMap_eq_nil_iff.1 hflat t htm
      | cons d ds =>
        have hpos : ∀ t ∈ (l :: ls), 0 < t.weightage := by
          intro t htm
          exact sLeafList_pos ts t (by rwa [hl])
        have htpos : 0 < ((l :: ls).map TaskNode.weightage).sum :=
          wsum_pos _ (List.cons_ne_nil l ls) hpos
        refine iff_of_false ?_ ?_
        · show ¬((if ((l :: ls).map TaskNode.weightage).sum = 0 then (none : Option SCurve)
            else some _) = none)
          rw [if_neg (ne_of_gt htpos)]
          simp
        · rintro (habs | ⟨t, htm, hmal⟩ | hall)
          · exact List.cons_ne_nil l ls habs
          · have hnone : seqDates ((l :: ls).flatMap datesPresent) = none :=
              (seqDates_eq_none_iff _).2 (List.mem_flatMap.2 ⟨t, htm, hmal⟩)
            rw [hd] at hnone
            cases hnone
          · have hflat : (l :: ls).flatMap datesPresent = [] :=
              List.flatMap_eq_nil_iff.2 (fun x hx => hall x hx)
            rw [hflat] at hd
            simp [seqDates] at hd

def exC4ts : List TaskNode :=
  [.mk ['1'] 1 (some 0) none (some (.day 0)) none [],
   .mk ['2'] 1 (some 0) none (some .mal) none []]

/-- Claim C4 counterexample: one selected leaf carries a perfectly
parsable planned end date, another a present but unparsable one — and
the whole curve result is empty, although the claim promises it never
comes back empty while some leaf has a parsable date. -/
theorem c4_counterexample_whole_abort :
    get_s_curve_data exC4ts 0 = none ∧
    (TaskNode.mk ['1'] 1 (some 0) none (some (.day 0)) none []) ∈ sLeafList exC4ts ∧
    (TaskNode.mk ['1'] 1 (some 0) none (some (.day 0)) none
      []).plannedEndDate = some (.day 0) := by
  have hleaf : sLeafList exC4ts =
      [TaskNode.mk ['1'] 1 (some 0) none (some (.day 0)) none [],
       TaskNode.mk ['2'] 1 (some 0) none (some .mal) none []] := by
    norm_num [exC4ts, sLeafList, sLeafTask]
  refine ⟨?_, ?_, rfl⟩
  · simp only [get_s_curve_data, hleaf]
    norm_num [datesPresent, seqDates, TaskNode.plannedStartDate, TaskNode.plannedEndDate,
      TaskNode.actualEndDate]
  · rw [hleaf]
    exact List.mem_cons_self _ _
